import Mathlib

/-!
# PlaneConcatenator (jsk_pcl_ros): merge decision and refit pipeline

A shallow embedding of `plane_concatenator_nodelet.cpp`:

* `concatenate` (source lines 85-178, up to the publishing step),
* `refinement` (lines 180-212),
* `isNearPointCloud` (lines 214-228).

Conventions of the embedding.

* `std::vector<T>` is `List T`; an unchecked `v[k]` is the fallible `v[k]?`, so a run
  that would read out of bounds is `none`.
* `IntegerGraphMap` (`std::map<int, std::vector<int>>`) is an association list kept
  sorted by key; `std::set<int>` is a strictly increasing list, whose `begin()` is its head.
* Cluster ids are natural numbers (cluster counts stay far below `2^31`, so the
  `size_t`/`int` conversions of the source never wrap).
* `boost::shared_ptr<pcl::ModelCoefficients>` is an address into an explicit heap of
  coefficient objects, so that object identity can be told from equality of values.
* The scalar type `R` of angles and distances is any linear order; `Plane::angle`,
  `pcl::KdTreeFLANN` and `pcl::SACSegmentation` are abstract operations collected in `Pcl`.
-/

namespace PlaneConcatenator

/-! ## Data model -/

/-- The type `IntegerGraphMap`: `std::map<int, std::vector<int>>`, entries sorted by key. -/
abbrev IntegerGraphMap := List (Nat × List Nat)

/-- Address of a `pcl::ModelCoefficients` object (`pcl::ModelCoefficients::Ptr`). -/
abbrev CoefficientsPtr := Nat

/-- The object `pcl::ModelCoefficients`: the vector `values`. -/
structure ModelCoefficients (R : Type) where
  values : List R
deriving DecidableEq

/-- Heap of `pcl::ModelCoefficients` objects; the address of an object is its position. -/
abbrev Heap (R : Type) := List (ModelCoefficients R)

/-- The members set by `configCallback` (source lines 234-240). -/
structure Config (R : Type) where
  connect_angular_threshold : R
  connect_distance_threshold : R
  ransac_refinement_max_iteration : Int
  ransac_refinement_outlier_threshold : R
  ransac_refinement_eps_angle : R
  min_size : Int

/-- What `refinement` sets on its `pcl::SACSegmentation` object before `segment`
(source lines 186-202); the model type is `SACMODEL_PERPENDICULAR_PLANE`, the method `SAC_RANSAC`. -/
structure SegmentationSetup (R : Type) where
  optimizeCoefficients : Bool
  distanceThreshold : R
  maxIterations : Int
  axis : R × R × R
  epsAngle : R

/-- What `seg.segment` writes: the inlier indices and the fitted coefficients. -/
structure Segmented (R : Type) where
  inliers : List Int
  coefficients : List R

/-- The operations of the libraries the nodelet calls, kept abstract:
`Plane::angle`, `KdTreeFLANN::setInputCloud`, `KdTreeFLANN::radiusSearch`
(tree, query point, radius, `max_nn`; returns the number of neighbours found) and
`SACSegmentation::segment`. -/
structure Pcl (Plane Point Tree R : Type) where
  angle : Plane → Plane → R
  setInputCloud : List Point → Tree
  radiusSearch : Tree → Point → R → Nat → Int
  segment : SegmentationSetup R → List Point → List Int → Segmented R

/-- The locals of `concatenate` after the conversions of source lines 94-105:
`nr_cluster` is the polygon count, `all_coefficients` the addresses of the converted
coefficient objects in `heap`, `all_indices` the cluster index vectors, `all_clouds`
the per-cluster clouds and `planes` the per-cluster planes. -/
structure Input (Plane Point R : Type) where
  nr_cluster : Nat
  cloud : List Point
  all_coefficients : List CoefficientsPtr
  all_indices : List (List Int)
  all_clouds : List (List Point)
  planes : List Plane
  heap : Heap R

/-! ## `std::map` operations used by `concatenate` -/

/-- The assignment `m[k] = v` on a key-sorted association list. -/
def mapAssign : IntegerGraphMap → Nat → List Nat → IntegerGraphMap
  | [], k, v => [(k, v)]
  | (k', v') :: rest, k, v =>
    if k < k' then (k, v) :: (k', v') :: rest
    else if k = k' then (k, v) :: rest
    else (k', v') :: mapAssign rest k v

/-- The stored vector of key `k`, if the key is present. -/
def mapFind : IntegerGraphMap → Nat → Option (List Nat)
  | [], _ => none
  | (k', v') :: rest, k => if k = k' then some v' else mapFind rest k

/-- The statement `m[k].push_back(x)`; `operator[]` creates an empty vector for a new key. -/
def mapPushBack (m : IntegerGraphMap) (k x : Nat) : IntegerGraphMap :=
  mapAssign m k ((mapFind m k).getD [] ++ [x])

/-! ## `isNearPointCloud` and the graph-building loop -/

section Code

variable {Plane Point Tree R : Type} [LinearOrder R]

/-- The function `PlaneConcatenator::isNearPointCloud` (source lines 214-228): scan the
points of `cloud`, return `true` at the first one whose radius search (with `max_nn = 1`)
finds a neighbour. -/
def isNearPointCloud (pcl : Pcl Plane Point Tree R) (cfg : Config R) (kdtree : Tree) :
    List Point → Bool
  | [] => false
  | p :: rest =>
    if pcl.radiusSearch kdtree p cfg.connect_distance_threshold 1 > 0 then true
    else isNearPointCloud pcl cfg kdtree rest

/-- The inner loop of source lines 117-126, over the values `js` of `j` still to visit. -/
def lookUpNearPolygon (pcl : Pcl Plane Point Tree R) (cfg : Config R)
    (inp : Input Plane Point R) (i : Nat) (focused_plane : Plane) (kdtree : Tree) :
    List Nat → IntegerGraphMap → Option IntegerGraphMap
  | [], connection_map => some connection_map
  | j :: js, connection_map =>
    match inp.planes[j]? with
    | none => none
    | some target_plane =>
      if pcl.angle focused_plane target_plane < cfg.connect_angular_threshold then
        match inp.all_clouds[j]? with
        | none => none
        | some target_cloud =>
          if isNearPointCloud pcl cfg kdtree target_cloud then
            lookUpNearPolygon pcl cfg inp i focused_plane kdtree js (mapPushBack connection_map i j)
          else
            lookUpNearPolygon pcl cfg inp i focused_plane kdtree js connection_map
      else
        lookUpNearPolygon pcl cfg inp i focused_plane kdtree js connection_map

/-- The outer loop of source lines 108-127, over the values `is` of `i` still to visit. -/
def buildConnectionLoop (pcl : Pcl Plane Point Tree R) (cfg : Config R)
    (inp : Input Plane Point R) : List Nat → IntegerGraphMap → Option IntegerGraphMap
  | [], connection_map => some connection_map
  | i :: is, connection_map =>
    let connection_map1 := mapPushBack (mapAssign connection_map i []) i i
    match inp.all_clouds[i]? with
    | none => none
    | some focused_cloud =>
      let kdtree := pcl.setInputCloud focused_cloud
      match inp.planes[i]? with
      | none => none
      | some focused_plane =>
        match lookUpNearPolygon pcl cfg inp i focused_plane kdtree
            (List.range' (i + 1) (inp.nr_cluster - (i + 1))) connection_map1 with
        | none => none
        | some connection_map2 => buildConnectionLoop pcl cfg inp is connection_map2

/-- Source lines 107-127 of `concatenate`: the connection map. -/
def buildConnectionMap (pcl : Pcl Plane Point Tree R) (cfg : Config R)
    (inp : Input Plane Point R) : Option IntegerGraphMap :=
  buildConnectionLoop pcl cfg inp (List.range inp.nr_cluster) []

end Code

/-! ## Grouping, index merging (helpers declared in `pcl_util.h`) -/

/-- The call `std::set<int>::insert` on a strictly increasing list. -/
def setInsert (x : Nat) : List Nat → List Nat
  | [] => [x]
  | y :: ys =>
    if x < y then x :: y :: ys
    else if x = y then y :: ys
    else y :: setInsert x ys

/-- The ids that occur in a graph map, as key or inside a stored vector, in increasing order. -/
def graphVertices (graph_map : IntegerGraphMap) : List Nat :=
  graph_map.foldr (fun e acc => setInsert e.1 (e.2.foldr setInsert acc)) []

/-- The directed edges `from -> to` a graph map stores, in map order. -/
def graphEdges (graph_map : IntegerGraphMap) : List (Nat × Nat) :=
  graph_map.flatMap (fun e => e.2.map (fun j => (e.1, j)))

/-- One union step of union-find over edges: the component labelled with the larger of the
two labels of `a` and `b` is relabelled with the smaller one. -/
def unionLabel (label : Nat → Nat) (a b : Nat) : Nat → Nat :=
  fun x => if label x = max (label a) (label b) then min (label a) (label b) else label x

/-- The label of every id after all edges of the map have been united, starting from
every id labelled with itself (every patch is connected to itself). -/
def componentLabel (graph_map : IntegerGraphMap) : Nat → Nat :=
  (graphEdges graph_map).foldl (fun label e => unionLabel label e.1 e.2) id

/-- Modelled from the spec: `buildAllGroupsSetFromGraphMap`, which `concatenate` calls at
source line 129 and whose body is not among the given sources. Spec section 4.2: "given the
(possibly asymmetric-but-semantically-undirected) adjacency, compute the connected
components. Two standard approaches are acceptable: union-find over edges, or
breadth/depth-first traversal treating adjacency as undirected. Output: a sequence of
disjoint, non-empty id sets [...] ordered by the smallest member id". This is union-find
over the stored edges, an edge uniting its two ends whatever its direction; a group is the
increasing list (`std::set<int>`) of the ids that carry one label, and the groups come in the
order of their labels. -/
def buildAllGroupsSetFromGraphMap (graph_map : IntegerGraphMap) : List (List Nat) :=
  let ids := graphVertices graph_map
  let label := componentLabel graph_map
  (ids.filter (fun k => label k = k)).map (fun k => ids.filter (fun x => label x = k))

/-- Modelled from the spec: `addIndices`, which `concatenate` calls at source line 139 and
whose body is not among the given sources. Spec section 2: the index merger "unions the
member patches' point-index sets into one combined index set, deduplicating". The entries of
`b` are appended to `a` in order, an entry already present being skipped. -/
def addIndices (a b : List Int) : List Int :=
  b.foldl (fun acc x => if x ∈ acc then acc else acc ++ [x]) a

section Code

variable {Plane Point Tree R : Type} [LinearOrder R]

/-- The inner loop of source lines 136-140, over the members `*it` of one group still to
visit, `new_one_indices` being the index vector accumulated so far. -/
def addGroupIndices (inp : Input Plane Point R) : List Nat → List Int → Option (List Int)
  | [], new_one_indices => some new_one_indices
  | it :: rest, new_one_indices =>
    match inp.all_indices[it]? with
    | none => none
    | some member_indices => addGroupIndices inp rest (addIndices new_one_indices member_indices)

/-- The loop of source lines 133-142 over the groups still to visit; `*cloud_sets[i].begin()`
is the head of the increasing list and is undefined on an empty group. -/
def buildNewIndices (inp : Input Plane Point R) :
    List (List Nat) → List (List Int) → List CoefficientsPtr →
      Option (List (List Int) × List CoefficientsPtr)
  | [], new_indices, new_coefficients => some (new_indices, new_coefficients)
  | group :: rest, new_indices, new_coefficients =>
    match group.head? with
    | none => none
    | some first =>
      match inp.all_coefficients[first]? with
      | none => none
      | some coefficients =>
        match addGroupIndices inp group [] with
        | none => none
        | some new_one_indices =>
          buildNewIndices inp rest (new_indices ++ [new_one_indices])
            (new_coefficients ++ [coefficients])

/-- The settings `refinement` puts on `seg` (source lines 186-202) for the normal
`(n0, n1, n2)` read from the original coefficients. -/
def refinementSetup (cfg : Config R) (n0 n1 n2 : R) : SegmentationSetup R :=
  { optimizeCoefficients := true
    distanceThreshold := cfg.ransac_refinement_outlier_threshold
    maxIterations := cfg.ransac_refinement_max_iteration
    axis := (n0, n1, n2)
    epsAngle := cfg.ransac_refinement_eps_angle }

/-- The function `PlaneConcatenator::refinement` (source lines 180-212). Reading
`original_coefficients->values[0..2]` needs a live object with three values. The fresh
object `refined_coefficients` gets the next free address and holds what `segment` wrote. -/
def refinement (pcl : Pcl Plane Point Tree R) (cfg : Config R) (heap : Heap R)
    (cloud : List Point) (indices : List Int) (original_coefficients : CoefficientsPtr) :
    Option (CoefficientsPtr × Heap R) :=
  match heap[original_coefficients]? with
  | none => none
  | some original =>
    match original.values[0]?, original.values[1]?, original.values[2]? with
    | some n0, some n1, some n2 =>
      let segmented := pcl.segment (refinementSetup cfg n0 n1 n2) cloud indices
      let refined_coefficients : CoefficientsPtr := heap.length
      let heap1 : Heap R := heap ++ [{ values := segmented.coefficients }]
      if segmented.inliers.length > 0 then some (refined_coefficients, heap1)
      else some (original_coefficients, heap1)
    | _, _, _ => none

/-- The loop of source lines 146-150, over the values of `i` still to visit. -/
def refineLoop (pcl : Pcl Plane Point Tree R) (cfg : Config R) (cloud : List Point)
    (new_indices : List (List Int)) (new_coefficients : List CoefficientsPtr) :
    List Nat → Heap R → List CoefficientsPtr → Option (List CoefficientsPtr × Heap R)
  | [], heap, new_refined_coefficients => some (new_refined_coefficients, heap)
  | i :: is, heap, new_refined_coefficients =>
    match new_indices[i]?, new_coefficients[i]? with
    | some indices, some coefficients =>
      match refinement pcl cfg heap cloud indices coefficients with
      | none => none
      | some (refined_coefficients, heap1) =>
        refineLoop pcl cfg cloud new_indices new_coefficients is heap1
          (new_refined_coefficients ++ [refined_coefficients])
    | _, _ => none

/-- The locals of `concatenate` when it reaches the publishing step (source line 152). -/
structure Output (R : Type) where
  connection_map : IntegerGraphMap
  cloud_sets : List (List Nat)
  new_indices : List (List Int)
  new_coefficients : List CoefficientsPtr
  new_refined_coefficients : List CoefficientsPtr
  heap : Heap R

/-- The function `PlaneConcatenator::concatenate`, source lines 106-150: connection map,
groups, merged indices, refinement. -/
def concatenate (pcl : Pcl Plane Point Tree R) (cfg : Config R) (inp : Input Plane Point R) :
    Option (Output R) :=
  match buildConnectionMap pcl cfg inp with
  | none => none
  | some connection_map =>
    let cloud_sets := buildAllGroupsSetFromGraphMap connection_map
    match buildNewIndices inp cloud_sets [] [] with
    | none => none
    | some (new_indices, new_coefficients) =>
      match refineLoop pcl cfg inp.cloud new_indices new_coefficients
          (List.range new_indices.length) inp.heap [] with
      | none => none
      | some (new_refined_coefficients, heap) =>
        some { connection_map := connection_map
               cloud_sets := cloud_sets
               new_indices := new_indices
               new_coefficients := new_coefficients
               new_refined_coefficients := new_refined_coefficients
               heap := heap }

end Code

/-! ## Notions used to state the properties -/

section Notions

variable {Plane Point Tree R : Type} [LinearOrder R]

/-- An input of `N` patches: the polygon count and all four per-cluster vectors have `N`
entries, and every coefficient address refers to a live object of the heap that holds at
least the three components of a normal. -/
structure ValidInput (inp : Input Plane Point R) (N : Nat) : Prop where
  nr_eq : inp.nr_cluster = N
  coefficients_eq : inp.all_coefficients.length = N
  indices_eq : inp.all_indices.length = N
  clouds_eq : inp.all_clouds.length = N
  planes_eq : inp.planes.length = N
  live : ∀ p ∈ inp.all_coefficients, ∃ c, inp.heap[p]? = some c ∧ 3 ≤ c.values.length

/-- The pairwise connection test of source lines 119-122 for the ids `i` and `j`, as the
loop evaluates it: the angle test first, then `isNearPointCloud` on the tree of patch `i`
and the cloud of patch `j`. -/
def connectionTest (pcl : Pcl Plane Point Tree R) (cfg : Config R) (inp : Input Plane Point R)
    (i j : Nat) : Bool :=
  match inp.planes[i]?, inp.planes[j]?, inp.all_clouds[i]?, inp.all_clouds[j]? with
  | some focused_plane, some target_plane, some focused_cloud, some target_cloud =>
    decide (pcl.angle focused_plane target_plane < cfg.connect_angular_threshold) &&
      isNearPointCloud pcl cfg (pcl.setInputCloud focused_cloud) target_cloud
  | _, _, _, _ => false

/-- The entry the graph-building loop leaves under key `i`: `i` itself, then the ids
`j` in `(i, nr_cluster)` that pass the connection test, in increasing order. -/
def connectionRow (pcl : Pcl Plane Point Tree R) (cfg : Config R) (inp : Input Plane Point R)
    (i : Nat) : Nat × List Nat :=
  (i, i :: (List.range' (i + 1) (inp.nr_cluster - (i + 1))).filter (connectionTest pcl cfg inp i))

/-- A coefficient address is live in a heap when it refers to an object that holds at
least the three components of a normal. -/
def Live (heap : Heap R) (p : CoefficientsPtr) : Prop :=
  ∃ c, heap[p]? = some c ∧ 3 ≤ c.values.length

/-- What the loop of source lines 136-140 leaves in `new_one_indices` for one group. -/
def mergedIndices (inp : Input Plane Point R) (group : List Nat) : List Int :=
  group.foldl (fun acc k => addIndices acc ((inp.all_indices[k]?).getD [])) []

/-- What source line 135 pushes for one group: the coefficient address stored at the
first id of the group. -/
def representative (inp : Input Plane Point R) (group : List Nat) : CoefficientsPtr :=
  (inp.all_coefficients[group.headD 0]?).getD 0

end Notions

/-- Two ids are linked in a graph map when a chain of stored edges, each taken in either
direction, leads from one to the other (including the empty chain). -/
def Linked (graph_map : IntegerGraphMap) : Nat → Nat → Prop :=
  Relation.EqvGen (fun a b => (a, b) ∈ graphEdges graph_map)

/-! ## Small concrete scenes -/

/-- A one-dimensional stand-in for the library: a plane is its angle in degrees, a point an
integer, a tree the list of its points; `radiusSearch` counts the points within the radius,
at most `max_nn` of them; `segment` keeps the non-negative indices as inliers and fits the
axis with offset `7`. -/
def linePcl : Pcl Int Int (List Int) Int :=
  { angle := fun a b => |a - b|
    setInputCloud := fun c => c
    radiusSearch := fun t p r k =>
      min (k : Int) ((t.filter (fun q => decide (|p - q| ≤ r))).length : Int)
    segment := fun seg _ idx =>
      { inliers := idx.filter (fun i => decide (0 ≤ i))
        coefficients := [seg.axis.1, seg.axis.2.1, seg.axis.2.2, 7] } }

/-- Angular threshold 5 degrees, distance threshold 1. -/
def strictConfig : Config Int :=
  { connect_angular_threshold := 5
    connect_distance_threshold := 1
    ransac_refinement_max_iteration := 10
    ransac_refinement_outlier_threshold := 1
    ransac_refinement_eps_angle := 1
    min_size := 0 }

/-- Angular threshold 50 degrees, distance threshold 3. -/
def looseConfig : Config Int :=
  { connect_angular_threshold := 50
    connect_distance_threshold := 3
    ransac_refinement_max_iteration := 10
    ransac_refinement_outlier_threshold := 1
    ransac_refinement_eps_angle := 1
    min_size := 0 }

/-- Three patches in a row, each within distance 1 of the next; the normals of patches 0
and 1 and of patches 1 and 2 differ by 4 degrees, those of patches 0 and 2 by 8 degrees.
The index vectors of patches 0 and 2 overlap in the point 0. -/
def chainScene : Input Int Int Int :=
  { nr_cluster := 3
    cloud := [0, 1, 2, 3, 4, 5]
    all_coefficients := [0, 1, 2]
    all_indices := [[0, 1], [2, 3], [4, 5, 0]]
    all_clouds := [[0, 1], [2, 3], [4, 5, 0]]
    planes := [0, 4, 8]
    heap := [{ values := [0, 0, 1, 0] }, { values := [0, 0, 1, 4] }, { values := [0, 0, 1, 8] }] }

/-- Two touching patches whose normals differ by 45 degrees. -/
def cornerScene : Input Int Int Int :=
  { nr_cluster := 2
    cloud := [0, 1, 2, 3]
    all_coefficients := [0, 1]
    all_indices := [[0, 1], [2, 3]]
    all_clouds := [[0, 1], [2, 3]]
    planes := [0, 45]
    heap := [{ values := [0, 0, 1, 0] }, { values := [1, 0, 1, 2] }] }

/-- Three patches of which the one with the largest id is the hub: every cloud is within
distance 1 of the next, the normals of patches 0 and 2 and of patches 1 and 2 differ by
4 degrees, those of patches 0 and 1 by 8 degrees. -/
def hubScene : Input Int Int Int :=
  { nr_cluster := 3
    cloud := [0, 1, 2, 3, 4, 5]
    all_coefficients := [0, 1, 2]
    all_indices := [[0, 1], [4, 5], [2, 3]]
    all_clouds := [[0, 1], [4, 5], [2, 3]]
    planes := [0, 8, 4]
    heap := [{ values := [0, 0, 1, 0] }, { values := [0, 0, 1, 8] }, { values := [0, 0, 1, 4] }] }

/-! ## The graph-building loop in closed form -/

theorem mapAssign_fresh (m : IntegerGraphMap) (k : Nat) (v : List Nat)
    (h : ∀ e ∈ m, e.1 < k) : mapAssign m k v = m ++ [(k, v)] := by
  induction m with
  | nil => rfl
  | cons e rest ih =>
    obtain ⟨k', v'⟩ := e
    have hk : k' < k := h (k', v') (List.mem_cons_self _ _)
    have h1 : ¬ k < k' := by omega
    have h2 : ¬ k = k' := by omega
    simp only [mapAssign, h1, h2, if_false, List.cons_append]
    exact congrArg _ (ih (fun e he => h e (List.mem_cons_of_mem _ he)))

theorem mapAssign_last (m : IntegerGraphMap) (k : Nat) (v w : List Nat)
    (h : ∀ e ∈ m, e.1 < k) : mapAssign (m ++ [(k, v)]) k w = m ++ [(k, w)] := by
  induction m with
  | nil => simp [mapAssign]
  | cons e rest ih =>
    obtain ⟨k', v'⟩ := e
    have hk : k' < k := h (k', v') (List.mem_cons_self _ _)
    have h1 : ¬ k < k' := by omega
    have h2 : ¬ k = k' := by omega
    simp only [mapAssign, h1, h2, if_false, List.cons_append]
    exact congrArg _ (ih (fun e he => h e (List.mem_cons_of_mem _ he)))

theorem mapFind_last (m : IntegerGraphMap) (k : Nat) (v : List Nat)
    (h : ∀ e ∈ m, e.1 < k) : mapFind (m ++ [(k, v)]) k = some v := by
  induction m with
  | nil => simp [mapFind]
  | cons e rest ih =>
    obtain ⟨k', v'⟩ := e
    have hk : k' < k := h (k', v') (List.mem_cons_self _ _)
    have h2 : ¬ k = k' := by omega
    simp only [mapFind, h2, if_false, List.cons_append]
    exact ih (fun e he => h e (List.mem_cons_of_mem _ he))

theorem mapPushBack_last (m : IntegerGraphMap) (k x : Nat) (v : List Nat)
    (h : ∀ e ∈ m, e.1 < k) : mapPushBack (m ++ [(k, v)]) k x = m ++ [(k, v ++ [x])] := by
  unfold mapPushBack
  rw [mapFind_last m k v h, mapAssign_last m k v _ h]
  rfl

section LoopLemmas

variable {Plane Point Tree R : Type}

theorem isNearPointCloud_iff (pcl : Pcl Plane Point Tree R) (cfg : Config R) (kdtree : Tree)
    (cloud : List Point) :
    isNearPointCloud pcl cfg kdtree cloud = true ↔
      ∃ p ∈ cloud, 0 < pcl.radiusSearch kdtree p cfg.connect_distance_threshold 1 := by
  induction cloud with
  | nil => simp [isNearPointCloud]
  | cons p rest ih =>
    unfold isNearPointCloud
    by_cases hp : pcl.radiusSearch kdtree p cfg.connect_distance_threshold 1 > 0
    · simp only [hp, if_true, true_iff]
      exact ⟨p, List.mem_cons_self _ _, hp⟩
    · simp only [hp, if_false, ih, List.mem_cons]
      constructor
      · rintro ⟨q, hq, hq'⟩
        exact ⟨q, Or.inr hq, hq'⟩
      · rintro ⟨q, hq | hq, hq'⟩
        · subst hq
          exact absurd hq' hp
        · exact ⟨q, hq, hq'⟩

theorem lookUpNearPolygon_eq [LinearOrder R] (pcl : Pcl Plane Point Tree R) (cfg : Config R)
    (inp : Input Plane Point R) (i : Nat) (focused_plane : Plane) (focused_cloud : List Point)
    (hp : inp.planes[i]? = some focused_plane) (hc : inp.all_clouds[i]? = some focused_cloud)
    (m : IntegerGraphMap) (hm : ∀ e ∈ m, e.1 < i) (js : List Nat)
    (hjs : ∀ j ∈ js, j < inp.planes.length ∧ j < inp.all_clouds.length) (v : List Nat) :
    lookUpNearPolygon pcl cfg inp i focused_plane (pcl.setInputCloud focused_cloud) js
        (m ++ [(i, v)]) =
      some (m ++ [(i, v ++ js.filter (connectionTest pcl cfg inp i))]) := by
  induction js generalizing v with
  | nil => simp [lookUpNearPolygon]
  | cons j js ih =>
    have hj := hjs j (List.mem_cons_self _ _)
    have ih' := fun v => ih (fun j hj => hjs j (List.mem_cons_of_mem _ hj)) v
    have hpj : inp.planes[j]? = some inp.planes[j] := List.getElem?_eq_getElem hj.1
    have hcj : inp.all_clouds[j]? = some inp.all_clouds[j] := List.getElem?_eq_getElem hj.2
    have htest : connectionTest pcl cfg inp i j =
        (decide (pcl.angle focused_plane inp.planes[j] < cfg.connect_angular_threshold) &&
          isNearPointCloud pcl cfg (pcl.setInputCloud focused_cloud) inp.all_clouds[j]) := by
      simp only [connectionTest, hp, hc, hpj, hcj]
    unfold lookUpNearPolygon
    simp only [hpj, hcj]
    by_cases ha : pcl.angle focused_plane inp.planes[j] < cfg.connect_angular_threshold
    · by_cases hn : isNearPointCloud pcl cfg (pcl.setInputCloud focused_cloud)
          inp.all_clouds[j] = true
      · have ht : connectionTest pcl cfg inp i j = true := by simp [htest, ha, hn]
        simp only [ha, hn, if_true, mapPushBack_last m i j v hm, ih', List.filter_cons, ht,
          List.append_assoc, List.singleton_append]
      · have ht : connectionTest pcl cfg inp i j = false := by simp [htest, hn]
        simp only [ha, hn, if_true, ih', List.filter_cons, ht]
        simp
    · have ht : connectionTest pcl cfg inp i j = false := by simp [htest, ha]
      simp only [ha, if_false, ih', List.filter_cons, ht]
      simp

theorem buildConnectionLoop_eq [LinearOrder R] (pcl : Pcl Plane Point Tree R) (cfg : Config R)
    (inp : Input Plane Point R) (hP : inp.nr_cluster ≤ inp.planes.length)
    (hC : inp.nr_cluster ≤ inp.all_clouds.length) (n s : Nat) (hs : s + n ≤ inp.nr_cluster)
    (m : IntegerGraphMap) (hm : ∀ e ∈ m, e.1 < s) :
    buildConnectionLoop pcl cfg inp (List.range' s n) m =
      some (m ++ (List.range' s n).map (connectionRow pcl cfg inp)) := by
  induction n generalizing s m with
  | zero => simp [buildConnectionLoop]
  | succ n ih =>
    have hsP : s < inp.planes.length := by omega
    have hsC : s < inp.all_clouds.length := by omega
    have hp : inp.planes[s]? = some inp.planes[s] := List.getElem?_eq_getElem hsP
    have hc : inp.all_clouds[s]? = some inp.all_clouds[s] := List.getElem?_eq_getElem hsC
    have hinner := lookUpNearPolygon_eq pcl cfg inp s inp.planes[s] inp.all_clouds[s] hp hc m hm
      (List.range' (s + 1) (inp.nr_cluster - (s + 1)))
      (by
        intro j hj
        rw [List.mem_range'_1] at hj
        omega) [s]
    have hstart : mapPushBack (mapAssign m s []) s s = m ++ [(s, [s])] := by
      rw [mapAssign_fresh m s [] hm, mapPushBack_last m s s [] hm]
      rfl
    rw [List.range'_succ]
    unfold buildConnectionLoop
    simp only [hp, hc, hstart, hinner]
    rw [ih (s + 1) (by omega)]
    · simp [connectionRow]
    · intro e he
      rw [List.mem_append] at he
      rcases he with he | he
      · exact Nat.lt_succ_of_lt (hm e he)
      · simp only [List.mem_singleton] at he
        subst he
        exact Nat.lt_succ_self _

theorem buildConnectionMap_eq [LinearOrder R] (pcl : Pcl Plane Point Tree R) (cfg : Config R)
    (inp : Input Plane Point R) (hP : inp.nr_cluster ≤ inp.planes.length)
    (hC : inp.nr_cluster ≤ inp.all_clouds.length) :
    buildConnectionMap pcl cfg inp =
      some ((List.range inp.nr_cluster).map (connectionRow pcl cfg inp)) := by
  unfold buildConnectionMap
  rw [List.range_eq_range']
  have h := buildConnectionLoop_eq pcl cfg inp hP hC inp.nr_cluster 0 (by omega) []
    (by intro e he; cases he)
  simpa using h

end LoopLemmas

/-! ## Vertices and edges of a graph map -/

theorem mem_setInsert (x y : Nat) (l : List Nat) : y ∈ setInsert x l ↔ y = x ∨ y ∈ l := by
  induction l with
  | nil => simp [setInsert]
  | cons z zs ih =>
    unfold setInsert
    split_ifs with h1 h2
    · simp
    · subst h2
      simp
    · simp only [List.mem_cons, ih]
      tauto

theorem setInsert_pairwise (x : Nat) (l : List Nat) (h : l.Pairwise (· < ·)) :
    (setInsert x l).Pairwise (· < ·) := by
  induction l with
  | nil => simp [setInsert]
  | cons z zs ih =>
    rw [List.pairwise_cons] at h
    unfold setInsert
    split_ifs with h1 h2
    · refine List.pairwise_cons.2 ⟨?_, List.pairwise_cons.2 h⟩
      intro a ha
      rcases List.mem_cons.1 ha with rfl | ha
      · exact h1
      · exact lt_trans h1 (h.1 a ha)
    · exact List.pairwise_cons.2 h
    · refine List.pairwise_cons.2 ⟨?_, ih h.2⟩
      intro a ha
      rcases (mem_setInsert x a zs).1 ha with rfl | ha
      · omega
      · exact h.1 a ha

theorem mem_foldr_setInsert (xs acc : List Nat) (y : Nat) :
    y ∈ xs.foldr setInsert acc ↔ y ∈ xs ∨ y ∈ acc := by
  induction xs with
  | nil => simp
  | cons x xs ih =>
    simp only [List.foldr_cons, mem_setInsert, ih, List.mem_cons]
    tauto

theorem foldr_setInsert_pairwise (xs acc : List Nat) (h : acc.Pairwise (· < ·)) :
    (xs.foldr setInsert acc).Pairwise (· < ·) := by
  induction xs with
  | nil => simpa using h
  | cons x xs ih => exact setInsert_pairwise x _ ih

theorem mem_graphVertices (m : IntegerGraphMap) (x : Nat) :
    x ∈ graphVertices m ↔ ∃ e ∈ m, x = e.1 ∨ x ∈ e.2 := by
  unfold graphVertices
  induction m with
  | nil => simp
  | cons e rest ih =>
    rw [List.foldr_cons, mem_setInsert, mem_foldr_setInsert, ih]
    simp only [List.mem_cons, exists_eq_or_imp, or_assoc]

theorem graphVertices_pairwise (m : IntegerGraphMap) : (graphVertices m).Pairwise (· < ·) := by
  induction m with
  | nil => simp [graphVertices]
  | cons e rest ih =>
    unfold graphVertices at ih ⊢
    exact setInsert_pairwise _ _ (foldr_setInsert_pairwise _ _ ih)

theorem mem_graphEdges (m : IntegerGraphMap) (a b : Nat) :
    (a, b) ∈ graphEdges m ↔ ∃ e ∈ m, a = e.1 ∧ b ∈ e.2 := by
  unfold graphEdges
  simp only [List.mem_flatMap, List.mem_map, Prod.mk.injEq]
  constructor
  · rintro ⟨e, he, j, hj, h1, h2⟩
    exact ⟨e, he, h1.symm, h2 ▸ hj⟩
  · rintro ⟨e, he, h1, h2⟩
    exact ⟨e, he, b, h2, h1.symm, rfl⟩

theorem graphEdges_mem_vertices (m : IntegerGraphMap) (e : Nat × Nat) (he : e ∈ graphEdges m) :
    e.1 ∈ graphVertices m ∧ e.2 ∈ graphVertices m := by
  obtain ⟨a, b⟩ := e
  obtain ⟨r, hr, h1, h2⟩ := (mem_graphEdges m a b).1 he
  exact ⟨(mem_graphVertices m a).2 ⟨r, hr, Or.inl h1⟩, (mem_graphVertices m b).2 ⟨r, hr, Or.inr h2⟩⟩

/-- Strictly increasing lists with the same members are equal. -/
theorem eq_of_pairwise_lt_of_mem_iff (l₁ l₂ : List Nat) (h₁ : l₁.Pairwise (· < ·))
    (h₂ : l₂.Pairwise (· < ·)) (h : ∀ x, x ∈ l₁ ↔ x ∈ l₂) : l₁ = l₂ := by
  have n₁ : l₁.Nodup := h₁.imp (fun hab => Nat.ne_of_lt hab)
  have n₂ : l₂.Nodup := h₂.imp (fun hab => Nat.ne_of_lt hab)
  exact List.eq_of_perm_of_sorted ((List.perm_ext_iff_of_nodup n₁ n₂).2 h) h₁ h₂

/-! ## Union-find labels -/

theorem unionLabel_ends (label : Nat → Nat) (a b : Nat) :
    unionLabel label a b a = unionLabel label a b b := by
  unfold unionLabel
  split_ifs <;> omega

theorem unionLabel_congr (label : Nat → Nat) (a b c d : Nat) (h : label c = label d) :
    unionLabel label a b c = unionLabel label a b d := by
  unfold unionLabel
  rw [h]

theorem unionLabel_idem (label : Nat → Nat) (a b : Nat) (h : ∀ x, label (label x) = label x)
    (x : Nat) : unionLabel label a b (unionLabel label a b x) = unionLabel label a b x := by
  have hmin : label (min (label a) (label b)) = min (label a) (label b) := by
    rcases min_choice (label a) (label b) with hc | hc <;> rw [hc] <;> exact h _
  unfold unionLabel
  by_cases hx : label x = max (label a) (label b)
  · simp only [hx, if_true, hmin]
    split_ifs <;> rfl
  · simp only [hx, if_false, h x]

theorem unionLabel_le (label : Nat → Nat) (a b : Nat) (h : ∀ x, label x ≤ x) (x : Nat) :
    unionLabel label a b x ≤ x := by
  unfold unionLabel
  have := h x
  split_ifs <;> omega

theorem unionLabel_mem (label : Nat → Nat) (a b : Nat) (S : List Nat)
    (h : ∀ x ∈ S, label x ∈ S) (ha : a ∈ S) (hb : b ∈ S) (x : Nat) (hx : x ∈ S) :
    unionLabel label a b x ∈ S := by
  unfold unionLabel
  split_ifs
  · rcases min_choice (label a) (label b) with hc | hc <;> rw [hc]
    · exact h a ha
    · exact h b hb
  · exact h x hx

theorem unionLabel_linked (r : Nat → Nat → Prop) (label : Nat → Nat) (a b : Nat)
    (h : ∀ x, Relation.EqvGen r x (label x)) (hab : r a b) (x : Nat) :
    Relation.EqvGen r x (unionLabel label a b x) := by
  have hlab : Relation.EqvGen r (label a) (label b) :=
    Relation.EqvGen.trans _ _ _ (Relation.EqvGen.symm _ _ (h a))
      (Relation.EqvGen.trans _ _ _ (Relation.EqvGen.rel _ _ hab) (h b))
  unfold unionLabel
  split_ifs with hx
  · refine Relation.EqvGen.trans _ _ _ (h x) ?_
    rw [hx]
    rcases le_total (label a) (label b) with hle | hle
    · rw [max_eq_right hle, min_eq_left hle]
      exact Relation.EqvGen.symm _ _ hlab
    · rw [max_eq_left hle, min_eq_right hle]
      exact hlab
  · exact h x

/-- An invariant of the labelling kept by every union step is kept by the whole run. -/
theorem foldl_unionLabel_invariant (P : (Nat → Nat) → Prop) (es : List (Nat × Nat))
    (hstep : ∀ label e, e ∈ es → P label → P (unionLabel label e.1 e.2))
    (label : Nat → Nat) (h : P label) :
    P (es.foldl (fun label e => unionLabel label e.1 e.2) label) := by
  induction es generalizing label with
  | nil => exact h
  | cons e rest ih =>
    rw [List.foldl_cons]
    exact ih (fun l e' he' hl => hstep l e' (List.mem_cons_of_mem _ he') hl) _
      (hstep label e (List.mem_cons_self _ _) h)

theorem foldl_unionLabel_edge (es : List (Nat × Nat)) (label : Nat → Nat) (e : Nat × Nat)
    (he : e ∈ es) :
    es.foldl (fun label e => unionLabel label e.1 e.2) label e.1 =
      es.foldl (fun label e => unionLabel label e.1 e.2) label e.2 := by
  induction es generalizing label with
  | nil => cases he
  | cons e' rest ih =>
    rw [List.foldl_cons]
    rcases List.mem_cons.1 he with rfl | he
    · exact foldl_unionLabel_invariant (fun l => l e.1 = l e.2) rest
        (fun l e' _ hl => unionLabel_congr l e'.1 e'.2 _ _ hl) _ (unionLabel_ends label e.1 e.2)
    · exact ih _ he

theorem componentLabel_idem (m : IntegerGraphMap) (x : Nat) :
    componentLabel m (componentLabel m x) = componentLabel m x :=
  foldl_unionLabel_invariant (fun l => ∀ x, l (l x) = l x) _
    (fun l e _ hl => unionLabel_idem l e.1 e.2 hl) id (fun _ => rfl) x

theorem componentLabel_le (m : IntegerGraphMap) (x : Nat) : componentLabel m x ≤ x :=
  foldl_unionLabel_invariant (fun l => ∀ x, l x ≤ x) _
    (fun l e _ hl => unionLabel_le l e.1 e.2 hl) id (fun _ => le_refl _) x

theorem componentLabel_mem (m : IntegerGraphMap) (x : Nat) (hx : x ∈ graphVertices m) :
    componentLabel m x ∈ graphVertices m :=
  foldl_unionLabel_invariant (fun l => ∀ x ∈ graphVertices m, l x ∈ graphVertices m) _
    (fun l e he hl => unionLabel_mem l e.1 e.2 _ hl (graphEdges_mem_vertices m e he).1
      (graphEdges_mem_vertices m e he).2) id (fun _ h => h) x hx

theorem componentLabel_linked (m : IntegerGraphMap) (x : Nat) : Linked m x (componentLabel m x) :=
  foldl_unionLabel_invariant
    (fun l => ∀ x, Relation.EqvGen (fun a b => (a, b) ∈ graphEdges m) x (l x)) _
    (fun l e he hl => unionLabel_linked _ l e.1 e.2 hl he) id
    (fun x => Relation.EqvGen.refl x) x

/-- Two ids carry the same label exactly when they are linked. -/
theorem componentLabel_eq_iff (m : IntegerGraphMap) (x y : Nat) :
    componentLabel m x = componentLabel m y ↔ Linked m x y := by
  constructor
  · intro h
    have hx := componentLabel_linked m x
    have hy := componentLabel_linked m y
    rw [h] at hx
    exact Relation.EqvGen.trans _ _ _ hx (Relation.EqvGen.symm _ _ hy)
  · intro h
    induction h with
    | rel a b hab => exact foldl_unionLabel_edge (graphEdges m) id (a, b) hab
    | refl a => rfl
    | symm a b _ ih => exact ih.symm
    | trans a b c _ _ ih₁ ih₂ => exact ih₁.trans ih₂

/-! ## The groups -/

theorem mem_buildAllGroups (m : IntegerGraphMap) (g : List Nat) :
    g ∈ buildAllGroupsSetFromGraphMap m ↔
      ∃ k ∈ graphVertices m, componentLabel m k = k ∧
        g = (graphVertices m).filter (fun x => componentLabel m x = k) := by
  unfold buildAllGroupsSetFromGraphMap
  simp only [List.mem_map, List.mem_filter, decide_eq_true_eq]
  constructor
  · rintro ⟨k, ⟨hk, hl⟩, rfl⟩
    exact ⟨k, hk, hl, rfl⟩
  · rintro ⟨k, hk, hl, rfl⟩
    exact ⟨k, ⟨hk, hl⟩, rfl⟩

theorem buildAllGroups_ne_nil (m : IntegerGraphMap) (g : List Nat)
    (hg : g ∈ buildAllGroupsSetFromGraphMap m) : g ≠ [] := by
  obtain ⟨k, hk, hl, rfl⟩ := (mem_buildAllGroups m g).1 hg
  apply List.ne_nil_of_mem (a := k)
  simp [List.mem_filter, hk, hl]

theorem buildAllGroups_cover (m : IntegerGraphMap) (x : Nat) :
    (∃ g ∈ buildAllGroupsSetFromGraphMap m, x ∈ g) ↔ x ∈ graphVertices m := by
  constructor
  · rintro ⟨g, hg, hx⟩
    obtain ⟨k, _, _, rfl⟩ := (mem_buildAllGroups m g).1 hg
    exact (List.mem_filter.1 hx).1
  · intro hx
    refine ⟨_, (mem_buildAllGroups m _).2
      ⟨componentLabel m x, componentLabel_mem m x hx, componentLabel_idem m x, rfl⟩, ?_⟩
    simp [List.mem_filter, hx]

theorem buildAllGroups_disjoint (m : IntegerGraphMap) :
    (buildAllGroupsSetFromGraphMap m).Pairwise (fun g h => ∀ x, x ∈ g → x ∉ h) := by
  unfold buildAllGroupsSetFromGraphMap
  simp only
  rw [List.pairwise_map]
  have hnd : ((graphVertices m).filter (fun k => componentLabel m k = k)).Pairwise (· < ·) :=
    (graphVertices_pairwise m).filter _
  refine hnd.imp ?_
  intro a b hab x hxa hxb
  simp only [List.mem_filter, decide_eq_true_eq] at hxa hxb
  omega

theorem buildAllGroups_pairwise (m : IntegerGraphMap) (g : List Nat)
    (hg : g ∈ buildAllGroupsSetFromGraphMap m) : g.Pairwise (· < ·) := by
  obtain ⟨k, _, _, rfl⟩ := (mem_buildAllGroups m g).1 hg
  exact (graphVertices_pairwise m).filter _

/-! ## The graph of the connection map -/

section GraphLemmas

variable {Plane Point Tree R : Type}

theorem mem_connectionRow [LinearOrder R] (pcl : Pcl Plane Point Tree R) (cfg : Config R)
    (inp : Input Plane Point R) (i j : Nat) :
    j ∈ (connectionRow pcl cfg inp i).2 ↔
      j = i ∨ (i < j ∧ j < inp.nr_cluster ∧ connectionTest pcl cfg inp i j = true) := by
  unfold connectionRow
  simp only [List.mem_cons, List.mem_filter, List.mem_range'_1]
  constructor
  · rintro (h | ⟨⟨h1, h2⟩, h3⟩)
    · exact Or.inl h
    · exact Or.inr ⟨by omega, by omega, h3⟩
  · rintro (h | ⟨h1, h2, h3⟩)
    · exact Or.inl h
    · exact Or.inr ⟨⟨by omega, by omega⟩, h3⟩

theorem mem_connectionMap [LinearOrder R] (pcl : Pcl Plane Point Tree R) (cfg : Config R)
    (inp : Input Plane Point R) (e : Nat × List Nat) :
    e ∈ (List.range inp.nr_cluster).map (connectionRow pcl cfg inp) ↔
      e.1 < inp.nr_cluster ∧ e = connectionRow pcl cfg inp e.1 := by
  simp only [List.mem_map, List.mem_range]
  constructor
  · rintro ⟨i, hi, rfl⟩
    exact ⟨hi, rfl⟩
  · rintro ⟨hi, he⟩
    exact ⟨e.1, hi, he.symm⟩

theorem mem_graphEdges_connectionMap [LinearOrder R] (pcl : Pcl Plane Point Tree R) (cfg : Config R)
    (inp : Input Plane Point R) (a b : Nat) :
    (a, b) ∈ graphEdges ((List.range inp.nr_cluster).map (connectionRow pcl cfg inp)) ↔
      a < inp.nr_cluster ∧
        (b = a ∨ (a < b ∧ b < inp.nr_cluster ∧ connectionTest pcl cfg inp a b = true)) := by
  rw [mem_graphEdges]
  constructor
  · rintro ⟨e, he, h1, h2⟩
    rw [mem_connectionMap] at he
    obtain ⟨hlt, heq⟩ := he
    rw [heq] at h2
    rw [← h1] at hlt h2
    exact ⟨hlt, (mem_connectionRow pcl cfg inp a b).1 h2⟩
  · rintro ⟨ha, hb⟩
    exact ⟨connectionRow pcl cfg inp a, (mem_connectionMap pcl cfg inp _).2 ⟨ha, rfl⟩, rfl,
      (mem_connectionRow pcl cfg inp a b).2 hb⟩

theorem graphVertices_connectionMap [LinearOrder R] (pcl : Pcl Plane Point Tree R) (cfg : Config R)
    (inp : Input Plane Point R) :
    graphVertices ((List.range inp.nr_cluster).map (connectionRow pcl cfg inp)) =
      List.range inp.nr_cluster := by
  apply eq_of_pairwise_lt_of_mem_iff _ _ (graphVertices_pairwise _)
    (List.pairwise_lt_range _)
  intro x
  rw [mem_graphVertices, List.mem_range]
  constructor
  · rintro ⟨e, he, hx⟩
    rw [mem_connectionMap] at he
    obtain ⟨hlt, heq⟩ := he
    rcases hx with hx | hx
    · omega
    · rw [heq] at hx
      rcases (mem_connectionRow pcl cfg inp e.1 x).1 hx with h | h
      · omega
      · exact h.2.1
  · intro hx
    exact ⟨connectionRow pcl cfg inp x, (mem_connectionMap pcl cfg inp _).2 ⟨hx, rfl⟩,
      Or.inl rfl⟩

end GraphLemmas

/-! ## Index merging -/

theorem mem_addIndices (a b : List Int) (x : Int) : x ∈ addIndices a b ↔ x ∈ a ∨ x ∈ b := by
  unfold addIndices
  induction b generalizing a with
  | nil => simp
  | cons y ys ih =>
    rw [List.foldl_cons, ih]
    by_cases hy : y ∈ a
    · simp only [hy, if_true, List.mem_cons]
      constructor
      · rintro (h | h)
        · exact Or.inl h
        · exact Or.inr (Or.inr h)
      · rintro (h | h | h)
        · exact Or.inl h
        · exact Or.inl (h ▸ hy)
        · exact Or.inr h
    · simp only [hy, if_false, List.mem_append, List.mem_singleton, List.mem_cons]
      tauto

theorem addIndices_nodup (a b : List Int) (h : a.Nodup) : (addIndices a b).Nodup := by
  unfold addIndices
  induction b generalizing a with
  | nil => simpa using h
  | cons y ys ih =>
    rw [List.foldl_cons]
    apply ih
    by_cases hy : y ∈ a
    · simpa only [hy, if_true] using h
    · simp only [hy, if_false]
      rw [List.nodup_append]
      refine ⟨h, List.nodup_singleton _, ?_⟩
      intro z hz hz'
      rw [List.mem_singleton] at hz'
      exact hy (hz' ▸ hz)

section MergeLemmas

variable {Plane Point Tree R : Type}

theorem mem_foldl_addIndices (inp : Input Plane Point R) (group : List Nat) (acc : List Int)
    (x : Int) :
    x ∈ group.foldl (fun acc k => addIndices acc ((inp.all_indices[k]?).getD [])) acc ↔
      x ∈ acc ∨ ∃ k ∈ group, x ∈ (inp.all_indices[k]?).getD [] := by
  induction group generalizing acc with
  | nil => simp
  | cons k ks ih =>
    rw [List.foldl_cons, ih, mem_addIndices]
    simp only [List.mem_cons, exists_eq_or_imp, or_assoc]

theorem foldl_addIndices_nodup (inp : Input Plane Point R) (group : List Nat) (acc : List Int)
    (h : acc.Nodup) :
    (group.foldl (fun acc k => addIndices acc ((inp.all_indices[k]?).getD [])) acc).Nodup := by
  induction group generalizing acc with
  | nil => simpa using h
  | cons k ks ih =>
    rw [List.foldl_cons]
    exact ih _ (addIndices_nodup _ _ h)

theorem addGroupIndices_eq (inp : Input Plane Point R) (group : List Nat) (acc : List Int)
    (h : ∀ k ∈ group, k < inp.all_indices.length) :
    addGroupIndices inp group acc =
      some (group.foldl (fun acc k => addIndices acc ((inp.all_indices[k]?).getD [])) acc) := by
  induction group generalizing acc with
  | nil => rfl
  | cons k ks ih =>
    have hk := h k (List.mem_cons_self _ _)
    unfold addGroupIndices
    rw [List.getElem?_eq_getElem hk]
    simp only [List.foldl_cons, List.getElem?_eq_getElem hk, Option.getD_some]
    exact ih _ (fun k' hk' => h k' (List.mem_cons_of_mem _ hk'))

theorem buildNewIndices_eq (inp : Input Plane Point R) (groups : List (List Nat))
    (h : ∀ g ∈ groups, g ≠ [] ∧
      ∀ k ∈ g, k < inp.all_indices.length ∧ k < inp.all_coefficients.length)
    (new_indices : List (List Int)) (new_coefficients : List CoefficientsPtr) :
    buildNewIndices inp groups new_indices new_coefficients =
      some (new_indices ++ groups.map (mergedIndices inp),
        new_coefficients ++ groups.map (representative inp)) := by
  induction groups generalizing new_indices new_coefficients with
  | nil => simp [buildNewIndices]
  | cons g rest ih =>
    obtain ⟨hne, hg⟩ := h g (List.mem_cons_self _ _)
    obtain ⟨first, tl, rfl⟩ := List.exists_cons_of_ne_nil hne
    have hfirst := (hg first (List.mem_cons_self _ _)).2
    unfold buildNewIndices
    simp only [List.head?_cons, List.getElem?_eq_getElem hfirst]
    rw [addGroupIndices_eq inp (first :: tl) [] (fun k hk => (hg k hk).1)]
    simp only
    rw [ih (fun g' hg' => h g' (List.mem_cons_of_mem _ hg'))]
    simp [mergedIndices, representative, List.getElem?_eq_getElem hfirst]

/-! ## Refinement -/

theorem Live.append {heap : Heap R} {p : CoefficientsPtr} (h : Live heap p) (ext : Heap R) :
    Live (heap ++ ext) p := by
  obtain ⟨c, hc, hv⟩ := h
  have hp : p < heap.length := by
    rcases Nat.lt_or_ge p heap.length with hlt | hge
    · exact hlt
    · rw [List.getElem?_eq_none hge] at hc
      cases hc
  exact ⟨c, by rw [List.getElem?_append_left hp]; exact hc, hv⟩

theorem refinement_eq [LinearOrder R] (pcl : Pcl Plane Point Tree R) (cfg : Config R)
    (heap : Heap R) (cloud : List Point) (indices : List Int) (p : CoefficientsPtr)
    (n0 n1 n2 : R) (rest : List R) (h : heap[p]? = some { values := n0 :: n1 :: n2 :: rest }) :
    refinement pcl cfg heap cloud indices p =
      some (if (pcl.segment (refinementSetup cfg n0 n1 n2) cloud indices).inliers.length > 0
          then heap.length else p,
        heap ++ [{ values := (pcl.segment (refinementSetup cfg n0 n1 n2) cloud indices).coefficients }]) := by
  unfold refinement
  simp only [h, List.getElem?_cons_zero, List.getElem?_cons_succ]
  split_ifs <;> rfl

theorem refinement_live [LinearOrder R] (pcl : Pcl Plane Point Tree R) (cfg : Config R)
    (heap : Heap R) (cloud : List Point) (indices : List Int) (p : CoefficientsPtr)
    (h : Live heap p) :
    ∃ r obj, refinement pcl cfg heap cloud indices p = some (r, heap ++ [obj]) := by
  obtain ⟨c, hc, hv⟩ := h
  obtain ⟨vs⟩ := c
  match vs, hv with
  | n0 :: n1 :: n2 :: rest, _ =>
    exact ⟨_, _, refinement_eq pcl cfg heap cloud indices p n0 n1 n2 rest hc⟩

theorem refineLoop_spec [LinearOrder R] (pcl : Pcl Plane Point Tree R) (cfg : Config R)
    (cloud : List Point) (new_indices : List (List Int)) (new_coefficients : List CoefficientsPtr)
    (hlen : new_indices.length = new_coefficients.length) (heap0 : Heap R)
    (hlive : ∀ p ∈ new_coefficients, Live heap0 p) (n s : Nat) (ext : Heap R)
    (acc : List CoefficientsPtr) (hs : s + n ≤ new_indices.length) :
    ∃ rs ext', refineLoop pcl cfg cloud new_indices new_coefficients (List.range' s n)
        (heap0 ++ ext) acc = some (acc ++ rs, heap0 ++ ext') ∧ rs.length = n ∧
      ∀ t, t < n → ∃ indices coefficients r e1 h2,
        new_indices[s + t]? = some indices ∧ new_coefficients[s + t]? = some coefficients ∧
        rs[t]? = some r ∧
        refinement pcl cfg (heap0 ++ e1) cloud indices coefficients = some (r, h2) := by
  induction n generalizing s ext acc with
  | zero =>
    exact ⟨[], ext, by simp [refineLoop], rfl, fun t ht => absurd ht (Nat.not_lt_zero t)⟩
  | succ n ih =>
    have hsi : s < new_indices.length := by omega
    have hsc : s < new_coefficients.length := by omega
    have hmem : new_coefficients[s] ∈ new_coefficients := List.getElem_mem _
    obtain ⟨r, obj, hr⟩ := refinement_live pcl cfg (heap0 ++ ext) cloud new_indices[s]
      new_coefficients[s] ((hlive _ hmem).append ext)
    obtain ⟨rs, ext', hloop, hrs, htrace⟩ := ih (s + 1) (ext ++ [obj]) (acc ++ [r]) (by omega)
    refine ⟨r :: rs, ext', ?_, by simp [hrs], ?_⟩
    · rw [List.range'_succ]
      unfold refineLoop
      simp only [List.getElem?_eq_getElem hsi, List.getElem?_eq_getElem hsc, hr]
      rw [List.append_assoc] at hloop ⊢
      rw [hloop]
      simp
    · intro t ht
      cases t with
      | zero =>
        exact ⟨new_indices[s], new_coefficients[s], r, ext, _,
          List.getElem?_eq_getElem hsi, List.getElem?_eq_getElem hsc, by simp, hr⟩
      | succ t =>
        obtain ⟨indices, coefficients, r', e1, h2, h1, h3, h4, h5⟩ := htrace t (by omega)
        refine ⟨indices, coefficients, r', e1, h2, ?_, ?_, ?_, h5⟩
        · rw [← h1]
          congr 1
          omega
        · rw [← h3]
          congr 1
          omega
        · simpa using h4

end MergeLemmas

/-! ## The whole of `concatenate` -/

section PipelineLemmas

variable {Plane Point Tree R : Type}

theorem mapFind_map (f : Nat → Nat × List Nat) (hf : ∀ k, (f k).1 = k) (ks : List Nat)
    (i : Nat) (hi : i ∈ ks) : mapFind (ks.map f) i = some (f i).2 := by
  induction ks with
  | nil => cases hi
  | cons k ks ih =>
    rcases hfk : f k with ⟨k1, v1⟩
    have hk1 : k1 = k := by
      have := hf k
      rw [hfk] at this
      exact this
    subst hk1
    simp only [List.map_cons, hfk, mapFind]
    by_cases hik : i = k1
    · subst hik
      simp [hfk]
    · simp only [hik, if_false]
      rcases List.mem_cons.1 hi with h | h
      · exact absurd h hik
      · exact ih h

theorem mapFind_connectionMap [LinearOrder R] (pcl : Pcl Plane Point Tree R) (cfg : Config R)
    (inp : Input Plane Point R) (i : Nat) (hi : i < inp.nr_cluster) :
    mapFind ((List.range inp.nr_cluster).map (connectionRow pcl cfg inp)) i =
      some (connectionRow pcl cfg inp i).2 :=
  mapFind_map (connectionRow pcl cfg inp) (fun _ => rfl) _ i (List.mem_range.2 hi)

theorem mapFind_mem (m : IntegerGraphMap) (i : Nat) (row : List Nat)
    (h : mapFind m i = some row) : (i, row) ∈ m := by
  induction m with
  | nil => cases h
  | cons e rest ih =>
    obtain ⟨k, v⟩ := e
    unfold mapFind at h
    by_cases hik : i = k
    · simp only [hik, if_true, Option.some.injEq] at h
      subst hik
      subst h
      exact List.mem_cons_self _ _
    · simp only [hik, if_false] at h
      exact List.mem_cons_of_mem _ (ih h)

theorem connectionTest_iff [LinearOrder R] (pcl : Pcl Plane Point Tree R) (cfg : Config R)
    (inp : Input Plane Point R) (i j : Nat) (focused_plane target_plane : Plane)
    (focused_cloud target_cloud : List Point) (h1 : inp.planes[i]? = some focused_plane)
    (h2 : inp.planes[j]? = some target_plane) (h3 : inp.all_clouds[i]? = some focused_cloud)
    (h4 : inp.all_clouds[j]? = some target_cloud) :
    connectionTest pcl cfg inp i j = true ↔
      pcl.angle focused_plane target_plane < cfg.connect_angular_threshold ∧
        isNearPointCloud pcl cfg (pcl.setInputCloud focused_cloud) target_cloud = true := by
  simp only [connectionTest, h1, h2, h3, h4, Bool.and_eq_true, decide_eq_true_eq]

theorem connectionTest_eq_true [LinearOrder R] (pcl : Pcl Plane Point Tree R) (cfg : Config R)
    (inp : Input Plane Point R) (i j : Nat) :
    connectionTest pcl cfg inp i j = true ↔
      ∃ focused_plane target_plane focused_cloud target_cloud,
        inp.planes[i]? = some focused_plane ∧ inp.planes[j]? = some target_plane ∧
        inp.all_clouds[i]? = some focused_cloud ∧ inp.all_clouds[j]? = some target_cloud ∧
        pcl.angle focused_plane target_plane < cfg.connect_angular_threshold ∧
        isNearPointCloud pcl cfg (pcl.setInputCloud focused_cloud) target_cloud = true := by
  constructor
  · intro h
    unfold connectionTest at h
    split at h
    · rename_i fp tp fc tc h1 h2 h3 h4
      simp only [Bool.and_eq_true, decide_eq_true_eq] at h
      exact ⟨fp, tp, fc, tc, h1, h2, h3, h4, h.1, h.2⟩
    · cases h
  · rintro ⟨fp, tp, fc, tc, h1, h2, h3, h4, h5⟩
    exact (connectionTest_iff pcl cfg inp i j fp tp fc tc h1 h2 h3 h4).2 h5

theorem groups_in_range [LinearOrder R] (pcl : Pcl Plane Point Tree R) (cfg : Config R)
    (inp : Input Plane Point R) (g : List Nat)
    (hg : g ∈ buildAllGroupsSetFromGraphMap
      ((List.range inp.nr_cluster).map (connectionRow pcl cfg inp))) :
    g ≠ [] ∧ ∀ k ∈ g, k < inp.nr_cluster := by
  refine ⟨buildAllGroups_ne_nil _ g hg, ?_⟩
  intro k hk
  have := (buildAllGroups_cover _ k).1 ⟨g, hg, hk⟩
  rw [graphVertices_connectionMap, List.mem_range] at this
  exact this

theorem representative_live (inp : Input Plane Point R) (N : Nat) (hv : ValidInput inp N)
    (g : List Nat) (hne : g ≠ []) (hg : ∀ k ∈ g, k < N) :
    Live inp.heap (representative inp g) := by
  obtain ⟨first, tl, rfl⟩ := List.exists_cons_of_ne_nil hne
  have hfirst : first < inp.all_coefficients.length := by
    rw [hv.coefficients_eq]
    exact hg first (List.mem_cons_self _ _)
  have hrep : representative inp (first :: tl) = inp.all_coefficients[first] := by
    simp [representative, List.getElem?_eq_getElem hfirst]
  rw [hrep]
  exact hv.live _ (List.getElem_mem _)

/-- On an input of `N` patches `concatenate` reaches the publishing step, with its locals
in closed form; every refined coefficient is what one call of `refinement` returned for the
merged index vector and the coefficient address at the same position. -/
theorem concatenate_eq [LinearOrder R] (pcl : Pcl Plane Point Tree R) (cfg : Config R)
    (inp : Input Plane Point R) (N : Nat) (hv : ValidInput inp N) :
    ∃ refined ext,
      concatenate pcl cfg inp = some
        { connection_map := (List.range inp.nr_cluster).map (connectionRow pcl cfg inp)
          cloud_sets := buildAllGroupsSetFromGraphMap
            ((List.range inp.nr_cluster).map (connectionRow pcl cfg inp))
          new_indices := (buildAllGroupsSetFromGraphMap
            ((List.range inp.nr_cluster).map (connectionRow pcl cfg inp))).map (mergedIndices inp)
          new_coefficients := (buildAllGroupsSetFromGraphMap
            ((List.range inp.nr_cluster).map (connectionRow pcl cfg inp))).map (representative inp)
          new_refined_coefficients := refined
          heap := inp.heap ++ ext } ∧
      refined.length = (buildAllGroupsSetFromGraphMap
        ((List.range inp.nr_cluster).map (connectionRow pcl cfg inp))).length ∧
      ∀ t, t < refined.length → ∃ g r e1 h2,
        (buildAllGroupsSetFromGraphMap
          ((List.range inp.nr_cluster).map (connectionRow pcl cfg inp)))[t]? = some g ∧
        refined[t]? = some r ∧
        refinement pcl cfg (inp.heap ++ e1) inp.cloud (mergedIndices inp g)
          (representative inp g) = some (r, h2) := by
  generalize hgs : buildAllGroupsSetFromGraphMap
    ((List.range inp.nr_cluster).map (connectionRow pcl cfg inp)) = groups
  have hrange : ∀ g ∈ groups, g ≠ [] ∧ ∀ k ∈ g, k < N := by
    intro g hg
    rw [← hgs] at hg
    have := groups_in_range pcl cfg inp g hg
    rw [hv.nr_eq] at this
    exact this
  have hbuild := buildConnectionMap_eq pcl cfg inp (by rw [hv.nr_eq, hv.planes_eq])
    (by rw [hv.nr_eq, hv.clouds_eq])
  have hmerge := buildNewIndices_eq inp groups
    (by
      intro g hg
      refine ⟨(hrange g hg).1, fun k hk => ?_⟩
      rw [hv.indices_eq, hv.coefficients_eq]
      exact ⟨(hrange g hg).2 k hk, (hrange g hg).2 k hk⟩) [] []
  obtain ⟨rs, ext, hloop, hrs, htrace⟩ := refineLoop_spec pcl cfg inp.cloud
    (groups.map (mergedIndices inp)) (groups.map (representative inp)) (by simp) inp.heap
    (by
      intro p hp
      obtain ⟨g, hg, rfl⟩ := List.mem_map.1 hp
      exact representative_live inp N hv g (hrange g hg).1 (hrange g hg).2)
    groups.length 0 [] [] (by simp)
  refine ⟨rs, ext, ?_, hrs, ?_⟩
  · unfold concatenate
    simp only [hbuild, hgs, hmerge, List.nil_append]
    rw [List.range_eq_range']
    simp only [List.length_map, List.append_nil, List.nil_append] at hloop ⊢
    rw [hloop]
  · intro t ht
    obtain ⟨indices, coefficients, r, e1, h2, h1, h3, h4, h5⟩ := htrace t (by omega)
    have htl : t < groups.length := by omega
    simp only [Nat.zero_add, List.getElem?_map, List.getElem?_eq_getElem htl, Option.map_some',
      Option.some.injEq] at h1 h3
    subst h1
    subst h3
    exact ⟨groups[t], r, e1, h2, List.getElem?_eq_getElem htl, h4, h5⟩

end PipelineLemmas

/-! ## Graphs without cross edges, and graphs on three patches -/

theorem linked_eq_of_self_loops (m : IntegerGraphMap)
    (h : ∀ a b, (a, b) ∈ graphEdges m → a = b) (x y : Nat) (hxy : Linked m x y) : x = y := by
  induction hxy with
  | rel a b hab => exact h a b hab
  | refl a => rfl
  | symm a b _ ih => exact ih.symm
  | trans a b c _ _ ih₁ ih₂ => exact ih₁.trans ih₂

theorem filter_range_eq_singleton (N k : Nat) (hk : k < N) (label : Nat → Nat)
    (hl : ∀ x, label x = x) :
    (List.range N).filter (fun x => decide (label x = k)) = [k] := by
  apply eq_of_pairwise_lt_of_mem_iff _ _ ((List.pairwise_lt_range N).filter _)
    (List.pairwise_singleton _ _)
  intro x
  simp only [List.mem_filter, List.mem_range, decide_eq_true_eq, List.mem_singleton, hl]
  constructor
  · exact fun h => h.2
  · rintro rfl
    exact ⟨hk, rfl⟩

section SpecialGraphs

variable {Plane Point Tree R : Type}

theorem groups_of_no_connection [LinearOrder R] (pcl : Pcl Plane Point Tree R) (cfg : Config R)
    (inp : Input Plane Point R)
    (hno : ∀ i j, i < j → j < inp.nr_cluster → connectionTest pcl cfg inp i j = false) :
    buildAllGroupsSetFromGraphMap ((List.range inp.nr_cluster).map (connectionRow pcl cfg inp)) =
      (List.range inp.nr_cluster).map (fun k => [k]) := by
  have hlabel : ∀ x, componentLabel
      ((List.range inp.nr_cluster).map (connectionRow pcl cfg inp)) x = x := by
    intro x
    refine (linked_eq_of_self_loops _ ?_ _ _ (componentLabel_linked _ x)).symm
    intro a b hab
    rw [mem_graphEdges_connectionMap] at hab
    rcases hab.2 with h | ⟨h1, h2, h3⟩
    · exact h.symm
    · rw [hno a b h1 h2] at h3
      cases h3
  unfold buildAllGroupsSetFromGraphMap
  simp only [graphVertices_connectionMap]
  rw [List.filter_eq_self.2 (fun k _ => by simp [hlabel])]
  apply List.map_congr_left
  intro k hk
  exact filter_range_eq_singleton _ k (List.mem_range.1 hk) _ hlabel

/-- The connection map of three patches, given the outcomes of the three tests. -/
theorem connectionMap_three [LinearOrder R] (pcl : Pcl Plane Point Tree R) (cfg : Config R)
    (inp : Input Plane Point R) (hnr : inp.nr_cluster = 3) (b01 b02 b12 : Bool)
    (h01 : connectionTest pcl cfg inp 0 1 = b01) (h02 : connectionTest pcl cfg inp 0 2 = b02)
    (h12 : connectionTest pcl cfg inp 1 2 = b12) :
    (List.range inp.nr_cluster).map (connectionRow pcl cfg inp) =
      [(0, 0 :: ((if b01 then [1] else []) ++ (if b02 then [2] else []))),
       (1, 1 :: (if b12 then [2] else [])), (2, [2])] := by
  have hr : List.range 3 = [0, 1, 2] := rfl
  have hr1 : List.range' 1 2 = [1, 2] := rfl
  have hr2 : List.range' 2 1 = [2] := rfl
  have hr3 : List.range' 3 0 = [] := rfl
  rw [hnr, hr]
  simp only [List.map_cons, List.map_nil, connectionRow, hnr, hr1, hr2, hr3, List.filter_cons,
    List.filter_nil, h01, h02, h12, Nat.reduceAdd, Nat.reduceSub]
  cases b01 <;> cases b02 <;> cases b12 <;> rfl

theorem groups_three_of_two_links (b01 b02 b12 : Bool)
    (h : (b01 && b12 || b01 && b02 || b02 && b12) = true) :
    buildAllGroupsSetFromGraphMap
      [(0, 0 :: ((if b01 then [1] else []) ++ (if b02 then [2] else []))),
       (1, 1 :: (if b12 then [2] else [])), (2, [2])] = [[0, 1, 2]] := by
  revert h
  cases b01 <;> cases b02 <;> cases b12 <;> decide

end SpecialGraphs

/-! ## The concrete scenes are inputs of 3 and of 2 patches -/

theorem chainScene_valid : ValidInput chainScene 3 where
  nr_eq := rfl
  coefficients_eq := rfl
  indices_eq := rfl
  clouds_eq := rfl
  planes_eq := rfl
  live := by
    intro p hp
    simp only [chainScene, List.mem_cons, List.mem_singleton, List.not_mem_nil, or_false] at hp
    rcases hp with rfl | rfl | rfl
    · exact ⟨_, rfl, by decide⟩
    · exact ⟨_, rfl, by decide⟩
    · exact ⟨_, rfl, by decide⟩

theorem cornerScene_valid : ValidInput cornerScene 2 where
  nr_eq := rfl
  coefficients_eq := rfl
  indices_eq := rfl
  clouds_eq := rfl
  planes_eq := rfl
  live := by
    intro p hp
    simp only [cornerScene, List.mem_cons, List.mem_singleton, List.not_mem_nil, or_false] at hp
    rcases hp with rfl | rfl
    · exact ⟨_, rfl, by decide⟩
    · exact ⟨_, rfl, by decide⟩

theorem hubScene_valid : ValidInput hubScene 3 where
  nr_eq := rfl
  coefficients_eq := rfl
  indices_eq := rfl
  clouds_eq := rfl
  planes_eq := rfl
  live := by
    intro p hp
    simp only [hubScene, List.mem_cons, List.mem_singleton, List.not_mem_nil, or_false] at hp
    rcases hp with rfl | rfl | rfl
    · exact ⟨_, rfl, by decide⟩
    · exact ⟨_, rfl, by decide⟩
    · exact ⟨_, rfl, by decide⟩

theorem linePcl_radiusSearch_mono (tree : List Int) (p r r' : Int) (hr : r ≤ r')
    (h : 0 < linePcl.radiusSearch tree p r 1) : 0 < linePcl.radiusSearch tree p r' 1 := by
  simp only [linePcl, Nat.cast_one, lt_min_iff, zero_lt_one, true_and, Nat.cast_pos,
    List.length_pos_iff_exists_mem, List.mem_filter, decide_eq_true_eq] at h ⊢
  obtain ⟨q, hq, hle⟩ := h
  exact ⟨q, hq, le_trans hle hr⟩

/-! ## Properties of the connection map -/

section ConnectionMap

variable {Plane Point Tree R : Type}

/-- Claim C1. On an input whose polygon count, plane vector and cloud vector all have `N`
entries the graph-building loop of `concatenate` produces a connection map, and for all ids
`i < j < N` the id `j` is recorded under key `i` if and only if the angle between plane `i`
and plane `j` is strictly below `connect_angular_threshold` and `isNearPointCloud` answers
`true` for the tree built over cloud `i` and cloud `j`; that answer is `true` exactly when
some point of cloud `j` has a radius search with `connect_distance_threshold` in the tree of
cloud `i` that finds a neighbour. -/
theorem connection_recorded_iff [LinearOrder R] (pcl : Pcl Plane Point Tree R) (cfg : Config R)
    (inp : Input Plane Point R) (N : Nat) (hnr : inp.nr_cluster = N)
    (hplanes : inp.planes.length = N) (hclouds : inp.all_clouds.length = N) :
    ∃ connection_map, buildConnectionMap pcl cfg inp = some connection_map ∧
      ∀ i j, i < j → j < N →
        ∃ row focused_plane target_plane focused_cloud target_cloud,
          mapFind connection_map i = some row ∧
          inp.planes[i]? = some focused_plane ∧ inp.planes[j]? = some target_plane ∧
          inp.all_clouds[i]? = some focused_cloud ∧ inp.all_clouds[j]? = some target_cloud ∧
          (j ∈ row ↔
            pcl.angle focused_plane target_plane < cfg.connect_angular_threshold ∧
              isNearPointCloud pcl cfg (pcl.setInputCloud focused_cloud) target_cloud = true) ∧
          (isNearPointCloud pcl cfg (pcl.setInputCloud focused_cloud) target_cloud = true ↔
            ∃ p ∈ target_cloud,
              0 < pcl.radiusSearch (pcl.setInputCloud focused_cloud) p
                cfg.connect_distance_threshold 1) := by
  refine ⟨_, buildConnectionMap_eq pcl cfg inp (by omega) (by omega), ?_⟩
  intro i j hij hj
  have hiP : i < inp.planes.length := by omega
  have hjP : j < inp.planes.length := by omega
  have hiC : i < inp.all_clouds.length := by omega
  have hjC : j < inp.all_clouds.length := by omega
  refine ⟨_, inp.planes[i], inp.planes[j], inp.all_clouds[i], inp.all_clouds[j],
    mapFind_connectionMap pcl cfg inp i (by omega), List.getElem?_eq_getElem hiP,
    List.getElem?_eq_getElem hjP, List.getElem?_eq_getElem hiC, List.getElem?_eq_getElem hjC,
    ?_, isNearPointCloud_iff pcl cfg _ _⟩
  rw [mem_connectionRow, ← connectionTest_iff pcl cfg inp i j _ _ _ _
    (List.getElem?_eq_getElem hiP) (List.getElem?_eq_getElem hjP)
    (List.getElem?_eq_getElem hiC) (List.getElem?_eq_getElem hjC)]
  constructor
  · rintro (h | h)
    · omega
    · exact h.2.2
  · intro h
    exact Or.inr ⟨hij, by omega, h⟩

/-- Claim C9. On an input whose polygon count, plane vector and cloud vector all have `N`
entries the connection map built by `concatenate` has exactly the keys `0, ..., N-1` in
this order, and the vector stored under a key `i` is `i` followed by ids `j` with
`i < j < N` in strictly increasing order. -/
theorem connection_map_shape [LinearOrder R] (pcl : Pcl Plane Point Tree R) (cfg : Config R)
    (inp : Input Plane Point R) (N : Nat) (hnr : inp.nr_cluster = N)
    (hplanes : inp.planes.length = N) (hclouds : inp.all_clouds.length = N) :
    ∃ connection_map, buildConnectionMap pcl cfg inp = some connection_map ∧
      connection_map.map Prod.fst = List.range N ∧
      ∀ e ∈ connection_map, ∃ others, e.2 = e.1 :: others ∧
        (∀ j ∈ others, e.1 < j ∧ j < N) ∧ (e.1 :: others).Pairwise (· < ·) := by
  refine ⟨_, buildConnectionMap_eq pcl cfg inp (by omega) (by omega), ?_, ?_⟩
  · rw [List.map_map, hnr]
    exact List.map_id'' (fun _ => rfl) _
  · intro e he
    obtain ⟨_, heq⟩ := (mem_connectionMap pcl cfg inp e).1 he
    have hmem : ∀ j ∈ (List.range' (e.1 + 1) (inp.nr_cluster - (e.1 + 1))).filter
        (connectionTest pcl cfg inp e.1), e.1 < j ∧ j < N := by
      intro j hj
      have := (List.mem_filter.1 hj).1
      rw [List.mem_range'_1] at this
      omega
    refine ⟨_, congrArg Prod.snd heq, hmem, List.pairwise_cons.2 ⟨fun j hj => (hmem j hj).1, ?_⟩⟩
    exact (List.pairwise_lt_range' _ _).filter _

end ConnectionMap

/-! ## Properties of the groups, of the merged indices and of the representative -/

section Groups

variable {Plane Point Tree R : Type}

/-- Claim C2. On every input of `N` patches `concatenate` reaches its publishing step, and
the groups `cloud_sets` it got from `buildAllGroupsSetFromGraphMap` on the connection map it
built are a partition of `[0, N)`: an id lies in some group exactly when it is below `N`,
groups at different positions share no id, and no group is empty. -/
theorem cloud_sets_partition [LinearOrder R] (pcl : Pcl Plane Point Tree R) (cfg : Config R)
    (inp : Input Plane Point R) (N : Nat) (hv : ValidInput inp N) :
    ∃ out, concatenate pcl cfg inp = some out ∧
      buildConnectionMap pcl cfg inp = some out.connection_map ∧
      out.cloud_sets = buildAllGroupsSetFromGraphMap out.connection_map ∧
      (∀ x, (∃ g ∈ out.cloud_sets, x ∈ g) ↔ x < N) ∧
      out.cloud_sets.Pairwise (fun g h => ∀ x, x ∈ g → x ∉ h) ∧
      ∀ g ∈ out.cloud_sets, g ≠ [] := by
  obtain ⟨refined, ext, hc, _, _⟩ := concatenate_eq pcl cfg inp N hv
  refine ⟨_, hc, ?_, rfl, ?_, buildAllGroups_disjoint _, fun g hg => buildAllGroups_ne_nil _ g hg⟩
  · exact buildConnectionMap_eq pcl cfg inp (by rw [hv.nr_eq, hv.planes_eq])
      (by rw [hv.nr_eq, hv.clouds_eq])
  · intro x
    simp only
    rw [buildAllGroups_cover, graphVertices_connectionMap, List.mem_range, hv.nr_eq]

/-- Claim C4. On every input of `N` patches, for the group at every output position the
merged index vector at the same position is what the fold of `addIndices` over the members
of the group returns from the empty vector; no entry occurs in it twice, and an index
occurs in it exactly when it occurs in the index vector of some member of the group. -/
theorem merged_indices_deduplicated_union [LinearOrder R] (pcl : Pcl Plane Point Tree R)
    (cfg : Config R) (inp : Input Plane Point R) (N : Nat) (hv : ValidInput inp N) :
    ∃ out, concatenate pcl cfg inp = some out ∧
      out.new_indices.length = out.cloud_sets.length ∧
      ∀ (g : Nat) (group : List Nat), out.cloud_sets[g]? = some group →
        ∃ merged, out.new_indices[g]? = some merged ∧
          addGroupIndices inp group [] = some merged ∧
          merged.Nodup ∧
          ∀ x, x ∈ merged ↔
            ∃ k ∈ group, ∃ member, inp.all_indices[k]? = some member ∧ x ∈ member := by
  obtain ⟨refined, ext, hc, _, _⟩ := concatenate_eq pcl cfg inp N hv
  refine ⟨_, hc, by simp, ?_⟩
  intro g group hg
  simp only at hg
  have hmem := List.getElem?_mem hg
  have hin : ∀ k ∈ group, k < inp.all_indices.length := by
    intro k hk
    rw [hv.indices_eq, ← hv.nr_eq]
    exact (groups_in_range pcl cfg inp group hmem).2 k hk
  refine ⟨mergedIndices inp group, by simp [hg], addGroupIndices_eq inp group [] hin,
    foldl_addIndices_nodup inp group [] List.nodup_nil, ?_⟩
  intro x
  unfold mergedIndices
  rw [mem_foldl_addIndices]
  constructor
  · rintro (h | ⟨k, hk, hx⟩)
    · cases h
    · rw [List.getElem?_eq_getElem (hin k hk)] at hx
      exact ⟨k, hk, _, List.getElem?_eq_getElem (hin k hk), hx⟩
  · rintro ⟨k, hk, member, hm, hx⟩
    refine Or.inr ⟨k, hk, ?_⟩
    rw [hm]
    exact hx

/-- Claim C7. On every input of `N` patches the lists of refined coefficients, of merged
index vectors and of groups have the same length, and for the group at every output
position `g` there is a member `first` of the group, not above any member, such that the
coefficient address pushed at position `g` is `all_coefficients[first]`; the refined
coefficient at position `g` is what `refinement` returned when called with the merged index
vector at position `g` and this address, that is the fresh fitted object if the fit around
the normal stored at this address found an inlier, and this very address otherwise. -/
theorem representative_is_smallest_id [LinearOrder R] (pcl : Pcl Plane Point Tree R)
    (cfg : Config R) (inp : Input Plane Point R) (N : Nat) (hv : ValidInput inp N) :
    ∃ out, concatenate pcl cfg inp = some out ∧
      out.new_refined_coefficients.length = out.new_indices.length ∧
      out.new_indices.length = out.cloud_sets.length ∧
      ∀ (g : Nat) (group : List Nat), out.cloud_sets[g]? = some group →
        ∃ first ptr merged refined,
          first ∈ group ∧ (∀ k ∈ group, first ≤ k) ∧
          inp.all_coefficients[first]? = some ptr ∧
          out.new_coefficients[g]? = some ptr ∧
          out.new_indices[g]? = some merged ∧
          out.new_refined_coefficients[g]? = some refined ∧
          ∃ ext heap2 n0 n1 n2 rest,
            refinement pcl cfg (inp.heap ++ ext) inp.cloud merged ptr = some (refined, heap2) ∧
            inp.heap[ptr]? = some { values := n0 :: n1 :: n2 :: rest } ∧
            refined =
              if (pcl.segment (refinementSetup cfg n0 n1 n2) inp.cloud merged).inliers.length > 0
              then (inp.heap ++ ext).length else ptr := by
  obtain ⟨refined, ext, hc, hlen, htrace⟩ := concatenate_eq pcl cfg inp N hv
  refine ⟨_, hc, by simp [hlen], by simp, ?_⟩
  intro g group hg
  simp only at hg
  have hmem := List.getElem?_mem hg
  obtain ⟨hne, hrange⟩ := groups_in_range pcl cfg inp group hmem
  have hsorted := buildAllGroups_pairwise _ group hmem
  have hg' := hg
  obtain ⟨first, tl, rfl⟩ := List.exists_cons_of_ne_nil hne
  have hfirst : first < inp.all_coefficients.length := by
    rw [hv.coefficients_eq, ← hv.nr_eq]
    exact hrange first (List.mem_cons_self _ _)
  have hrep : representative inp (first :: tl) = inp.all_coefficients[first] := by
    simp [representative, List.getElem?_eq_getElem hfirst]
  have hgl : g < refined.length := by
    rw [hlen]
    exact (List.getElem?_eq_some.1 hg).1
  obtain ⟨group', r, e1, h2, hg2, hr, hcall⟩ := htrace g hgl
  rw [hg] at hg2
  cases hg2
  obtain ⟨c, hcl, hcv⟩ := hv.live _ (List.getElem_mem hfirst)
  obtain ⟨vs⟩ := c
  match vs, hcv with
  | n0 :: n1 :: n2 :: rest, _ =>
    have hcl' : (inp.heap ++ e1)[inp.all_coefficients[first]]? =
        some { values := n0 :: n1 :: n2 :: rest } := by
      have hlt : inp.all_coefficients[first] < inp.heap.length :=
        (List.getElem?_eq_some.1 hcl).1
      rw [List.getElem?_append_left hlt]
      exact hcl
    have heq := refinement_eq pcl cfg (inp.heap ++ e1) inp.cloud (mergedIndices inp (first :: tl))
      inp.all_coefficients[first] n0 n1 n2 rest hcl'
    rw [hrep] at hcall
    have hr' := hcall.symm.trans heq
    simp only [Option.some.injEq, Prod.mk.injEq] at hr'
    refine ⟨first, inp.all_coefficients[first], mergedIndices inp (first :: tl), r,
      List.mem_cons_self _ _, ?_, List.getElem?_eq_getElem hfirst, ?_, ?_, hr,
      e1, h2, n0, n1, n2, rest, hcall, hcl, hr'.1⟩
    · intro k hk
      rcases List.mem_cons.1 hk with rfl | hk
      · exact le_refl _
      · exact le_of_lt ((List.pairwise_cons.1 hsorted).1 k hk)
    · simp [hg', hrep]
    · simp [hg']

end Groups

/-! ## Transitive grouping, the case without connections, threshold monotonicity -/

section Scenarios

variable {Plane Point Tree R : Type}

/-- Claim C3. On every input of three patches and for every assignment `a`, `b`, `c` of the
ids `0, 1, 2` to the patches A, B, C: if the pair A, B and the pair B, C pass the connection
test (evaluated, as the loop does, with the smaller id as `i` and the larger as `j`) and the
pair A, C does not, then `concatenate` puts all three ids in one group and produces exactly
one merged index vector and one refined coefficient. -/
theorem transitive_grouping_three_patches [LinearOrder R] (pcl : Pcl Plane Point Tree R)
    (cfg : Config R) (inp : Input Plane Point R) (hv : ValidInput inp 3) (a b c : Nat)
    (ha : a < 3) (hb : b < 3) (hc : c < 3) (hab : a ≠ b) (hbc : b ≠ c) (hac : a ≠ c)
    (hAB : connectionTest pcl cfg inp (min a b) (max a b) = true)
    (hBC : connectionTest pcl cfg inp (min b c) (max b c) = true)
    (hAC : connectionTest pcl cfg inp (min a c) (max a c) = false) :
    ∃ out, concatenate pcl cfg inp = some out ∧
      out.cloud_sets = [[0, 1, 2]] ∧
      out.new_indices.length = 1 ∧
      out.new_refined_coefficients.length = 1 := by
  obtain ⟨refined, ext, hcon, hlen, _⟩ := concatenate_eq pcl cfg inp 3 hv
  have hgroups : buildAllGroupsSetFromGraphMap
      ((List.range inp.nr_cluster).map (connectionRow pcl cfg inp)) = [[0, 1, 2]] := by
    rw [connectionMap_three pcl cfg inp hv.nr_eq _ _ _ rfl rfl rfl]
    apply groups_three_of_two_links
    interval_cases a <;> interval_cases b <;> interval_cases c <;>
      simp_all
  refine ⟨_, hcon, hgroups, ?_, ?_⟩
  · simp [hgroups]
  · simp [hlen, hgroups]

/-- Claim C8. On every input of `N` patches in which no pair `i < j < N` passes the
connection test, `concatenate` produces the `N` groups `[0], [1], ..., [N-1]` in this order,
`N` merged index vectors and `N` refined coefficients; the `k`-th merged index vector is
`addIndices` of the empty vector and the index vector of patch `k`, the `k`-th coefficient
address is `all_coefficients[k]`, and the `k`-th refined coefficient is what `refinement`
returned when called with these two. -/
theorem no_connection_singletons [LinearOrder R] (pcl : Pcl Plane Point Tree R) (cfg : Config R)
    (inp : Input Plane Point R) (N : Nat) (hv : ValidInput inp N)
    (hno : ∀ i j, i < j → j < N → connectionTest pcl cfg inp i j = false) :
    ∃ out, concatenate pcl cfg inp = some out ∧
      out.cloud_sets = (List.range N).map (fun k => [k]) ∧
      out.new_indices.length = N ∧
      out.new_refined_coefficients.length = N ∧
      ∀ k, k < N → ∃ member ptr refined ext heap2,
        inp.all_indices[k]? = some member ∧
        inp.all_coefficients[k]? = some ptr ∧
        out.new_indices[k]? = some (addIndices [] member) ∧
        out.new_coefficients[k]? = some ptr ∧
        out.new_refined_coefficients[k]? = some refined ∧
        refinement pcl cfg (inp.heap ++ ext) inp.cloud (addIndices [] member) ptr =
          some (refined, heap2) := by
  obtain ⟨refined, ext, hcon, hlen, htrace⟩ := concatenate_eq pcl cfg inp N hv
  have hgroups := groups_of_no_connection pcl cfg inp (by rw [hv.nr_eq]; exact hno)
  rw [hv.nr_eq] at hgroups
  rw [hv.nr_eq] at hcon hlen htrace
  rw [hgroups] at hcon hlen htrace
  simp only [List.length_map, List.length_range] at hlen
  refine ⟨_, hcon, rfl, by simp, hlen, ?_⟩
  intro k hk
  have hki : k < inp.all_indices.length := by rw [hv.indices_eq]; exact hk
  have hkc : k < inp.all_coefficients.length := by rw [hv.coefficients_eq]; exact hk
  obtain ⟨g, r, e1, h2, hg, hr, hcall⟩ := htrace k (by omega)
  have hgk : g = [k] := by
    simp only [List.getElem?_map, List.getElem?_range hk, Option.map_some',
      Option.some.injEq] at hg
    exact hg.symm
  subst hgk
  have hmerged : mergedIndices inp [k] = addIndices [] inp.all_indices[k] := by
    simp [mergedIndices, List.getElem?_eq_getElem hki]
  have hrep : representative inp [k] = inp.all_coefficients[k] := by
    simp [representative, List.getElem?_eq_getElem hkc]
  rw [hmerged, hrep] at hcall
  refine ⟨inp.all_indices[k], inp.all_coefficients[k], r, e1, h2,
    List.getElem?_eq_getElem hki, List.getElem?_eq_getElem hkc, ?_, ?_, hr, hcall⟩
  · simp [List.getElem?_range hk, hmerged]
  · simp [List.getElem?_range hk, hrep]

/-- Claim C6. Take one input whose polygon count, plane vector and cloud vector all have `N`
entries and two configurations, the second with an angular threshold and a distance
threshold not below those of the first, and let the radius search be monotone in its
radius (a neighbour found within a radius is found within every larger one). Then both runs build
a connection map, every id recorded under a key in the first map is recorded under the same
key in the second, and every group of the first run is contained in a group of the second. -/
theorem threshold_monotonicity [LinearOrder R] (pcl : Pcl Plane Point Tree R)
    (cfg cfg' : Config R) (inp : Input Plane Point R) (N : Nat) (hnr : inp.nr_cluster = N)
    (hplanes : inp.planes.length = N) (hclouds : inp.all_clouds.length = N)
    (hangle : cfg.connect_angular_threshold ≤ cfg'.connect_angular_threshold)
    (hdist : cfg.connect_distance_threshold ≤ cfg'.connect_distance_threshold)
    (hsearch : ∀ tree p r r', r ≤ r' → 0 < pcl.radiusSearch tree p r 1 →
      0 < pcl.radiusSearch tree p r' 1) :
    ∃ m m', buildConnectionMap pcl cfg inp = some m ∧
      buildConnectionMap pcl cfg' inp = some m' ∧
      (∀ i row, mapFind m i = some row →
        ∃ row', mapFind m' i = some row' ∧ ∀ j ∈ row, j ∈ row') ∧
      ∀ g ∈ buildAllGroupsSetFromGraphMap m,
        ∃ g' ∈ buildAllGroupsSetFromGraphMap m', ∀ x ∈ g, x ∈ g' := by
  have htest : ∀ i j, connectionTest pcl cfg inp i j = true →
      connectionTest pcl cfg' inp i j = true := by
    intro i j h
    obtain ⟨fp, tp, fc, tc, h1, h2, h3, h4, hlt, hnear⟩ :=
      (connectionTest_eq_true pcl cfg inp i j).1 h
    rw [isNearPointCloud_iff] at hnear
    obtain ⟨p, hp, hfound⟩ := hnear
    refine (connectionTest_eq_true pcl cfg' inp i j).2
      ⟨fp, tp, fc, tc, h1, h2, h3, h4, lt_of_lt_of_le hlt hangle, ?_⟩
    rw [isNearPointCloud_iff]
    exact ⟨p, hp, hsearch _ p _ _ hdist hfound⟩
  have hrow : ∀ i j, j ∈ (connectionRow pcl cfg inp i).2 → j ∈ (connectionRow pcl cfg' inp i).2 := by
    intro i j hj
    rw [mem_connectionRow] at hj ⊢
    rcases hj with h | ⟨h1, h2, h3⟩
    · exact Or.inl h
    · exact Or.inr ⟨h1, h2, htest i j h3⟩
  have hedge : ∀ x y, Linked ((List.range inp.nr_cluster).map (connectionRow pcl cfg inp)) x y →
      Linked ((List.range inp.nr_cluster).map (connectionRow pcl cfg' inp)) x y := by
    intro x y hxy
    refine Relation.EqvGen.mono ?_ hxy
    intro u v huv
    rw [mem_graphEdges_connectionMap] at huv ⊢
    rcases huv with ⟨hu, h | ⟨h1, h2, h3⟩⟩
    · exact ⟨hu, Or.inl h⟩
    · exact ⟨hu, Or.inr ⟨h1, h2, htest u v h3⟩⟩
  refine ⟨_, _, buildConnectionMap_eq pcl cfg inp (by omega) (by omega),
    buildConnectionMap_eq pcl cfg' inp (by omega) (by omega), ?_, ?_⟩
  · intro i row hfind
    have hmem := (mem_connectionMap pcl cfg inp (i, row)).1 (mapFind_mem _ i row hfind)
    simp only at hmem
    refine ⟨_, mapFind_connectionMap pcl cfg' inp i hmem.1, ?_⟩
    intro j hj
    have hrow_eq : row = (connectionRow pcl cfg inp i).2 := congrArg Prod.snd hmem.2
    rw [hrow_eq] at hj
    exact hrow i j hj
  · intro g hg
    obtain ⟨k, hk, hkl, rfl⟩ := (mem_buildAllGroups _ g).1 hg
    rw [graphVertices_connectionMap] at hk
    refine ⟨_, (mem_buildAllGroups _ _).2 ⟨componentLabel
      ((List.range inp.nr_cluster).map (connectionRow pcl cfg' inp)) k, ?_,
      componentLabel_idem _ k, rfl⟩, ?_⟩
    · apply componentLabel_mem
      rw [graphVertices_connectionMap]
      exact hk
    · intro x hx
      simp only [graphVertices_connectionMap, List.mem_filter, decide_eq_true_eq] at hx ⊢
      refine ⟨hx.1, ?_⟩
      have hxk : componentLabel ((List.range inp.nr_cluster).map (connectionRow pcl cfg inp)) x =
          componentLabel ((List.range inp.nr_cluster).map (connectionRow pcl cfg inp)) k := by
        rw [hx.2, hkl]
      exact (componentLabel_eq_iff _ x k).2 (hedge x k ((componentLabel_eq_iff _ x k).1 hxk))

end Scenarios

/-! ## Refinement fallback and index safety -/

section Safety

variable {Plane Point Tree R : Type}

/-- Claim C5. For every heap, cloud, index vector and address `original_coefficients` of a
live coefficient object with normal `(n0, n1, n2)`, `refinement` returns; no object that
existed before the call is changed; if the segmentation around that normal yields no inlier
the returned address is `original_coefficients` itself, and if it yields at least one inlier
the returned address is that of a fresh object holding the coefficients the segmentation
fitted. -/
theorem refinement_falls_back_or_refits [LinearOrder R] (pcl : Pcl Plane Point Tree R)
    (cfg : Config R) (heap : Heap R) (cloud : List Point) (indices : List Int)
    (original_coefficients : CoefficientsPtr) (n0 n1 n2 : R) (rest : List R)
    (hlive : heap[original_coefficients]? = some { values := n0 :: n1 :: n2 :: rest }) :
    ∃ result heap',
      refinement pcl cfg heap cloud indices original_coefficients = some (result, heap') ∧
      (∀ p, p < heap.length → heap'[p]? = heap[p]?) ∧
      ((pcl.segment (refinementSetup cfg n0 n1 n2) cloud indices).inliers.length = 0 →
        result = original_coefficients ∧
          heap'[result]? = some { values := n0 :: n1 :: n2 :: rest }) ∧
      (0 < (pcl.segment (refinementSetup cfg n0 n1 n2) cloud indices).inliers.length →
        heap.length ≤ result ∧
          heap'[result]? = some
            { values := (pcl.segment (refinementSetup cfg n0 n1 n2) cloud indices).coefficients }) := by
  have hlt : original_coefficients < heap.length := (List.getElem?_eq_some.1 hlive).1
  refine ⟨_, _, refinement_eq pcl cfg heap cloud indices original_coefficients n0 n1 n2 rest hlive,
    fun p hp => List.getElem?_append_left hp, ?_, ?_⟩
  · intro h0
    have hnot : ¬ (pcl.segment (refinementSetup cfg n0 n1 n2) cloud indices).inliers.length > 0 := by
      omega
    simp only [hnot, if_false, true_and]
    rw [List.getElem?_append_left hlt]
    exact hlive
  · intro hpos
    have hpos' : (pcl.segment (refinementSetup cfg n0 n1 n2) cloud indices).inliers.length > 0 := hpos
    simp only [hpos', if_true, le_refl, true_and]
    simp

/-- Claim C10. If the polygon count, the cluster index vector and the coefficient vector
all have `N` entries (with one cloud per index vector and one plane per coefficient
object), then the graph-building loop and the merge loop of `concatenate` run without
reading any vector out of bounds: both produce their result, every id stored in the
connection map is below `N`, every group has a first member, which is a valid position of
the coefficient vector, every member of every group is a valid position of the index
vector, and the merge loop pushes as many coefficient addresses as merged index vectors. -/
theorem concatenate_index_safety [LinearOrder R] (pcl : Pcl Plane Point Tree R) (cfg : Config R)
    (inp : Input Plane Point R) (N : Nat) (hnr : inp.nr_cluster = N)
    (hindices : inp.all_indices.length = N) (hcoefficients : inp.all_coefficients.length = N)
    (hclouds : inp.all_clouds.length = inp.all_indices.length)
    (hplanes : inp.planes.length = inp.all_coefficients.length) :
    ∃ connection_map, buildConnectionMap pcl cfg inp = some connection_map ∧
      (∀ e ∈ connection_map, e.1 < N ∧ ∀ j ∈ e.2, j < N) ∧
      (∀ g ∈ buildAllGroupsSetFromGraphMap connection_map,
        (∃ first, g.head? = some first ∧ first < inp.all_coefficients.length) ∧
          ∀ k ∈ g, k < inp.all_indices.length) ∧
      ∃ new_indices new_coefficients,
        buildNewIndices inp (buildAllGroupsSetFromGraphMap connection_map) [] [] =
          some (new_indices, new_coefficients) ∧
        new_coefficients.length = new_indices.length := by
  have hrange : ∀ g ∈ buildAllGroupsSetFromGraphMap
      ((List.range inp.nr_cluster).map (connectionRow pcl cfg inp)), g ≠ [] ∧ ∀ k ∈ g, k < N := by
    intro g hg
    have := groups_in_range pcl cfg inp g hg
    rw [hnr] at this
    exact this
  refine ⟨_, buildConnectionMap_eq pcl cfg inp (by omega) (by omega), ?_, ?_, _, _,
    buildNewIndices_eq inp _ (fun g hg => ⟨(hrange g hg).1, fun k hk => ?_⟩) [] [], by simp⟩
  · intro e he
    obtain ⟨hlt, heq⟩ := (mem_connectionMap pcl cfg inp e).1 he
    refine ⟨by omega, ?_⟩
    intro j hj
    rw [heq] at hj
    rcases (mem_connectionRow pcl cfg inp e.1 j).1 hj with h | h
    · omega
    · omega
  · intro g hg
    obtain ⟨hne, hk⟩ := hrange g hg
    obtain ⟨first, tl, rfl⟩ := List.exists_cons_of_ne_nil hne
    refine ⟨⟨first, rfl, ?_⟩, fun k hk' => ?_⟩
    · have := hk first (List.mem_cons_self _ _)
      omega
    · have := hk k hk'
      omega
  · have := (hrange g hg).2 k hk
    omega

end Safety

/-! ## The properties at the concrete scenes -/

/-- Claim C1 at the chain scene. -/
theorem connection_recorded_iff_witness :
    (chainScene.nr_cluster = 3 ∧ chainScene.planes.length = 3 ∧
      chainScene.all_clouds.length = 3) ∧
    ∃ connection_map, buildConnectionMap linePcl strictConfig chainScene = some connection_map ∧
      ∀ i j, i < j → j < 3 →
        ∃ row focused_plane target_plane focused_cloud target_cloud,
          mapFind connection_map i = some row ∧
          chainScene.planes[i]? = some focused_plane ∧
          chainScene.planes[j]? = some target_plane ∧
          chainScene.all_clouds[i]? = some focused_cloud ∧
          chainScene.all_clouds[j]? = some target_cloud ∧
          (j ∈ row ↔
            linePcl.angle focused_plane target_plane < strictConfig.connect_angular_threshold ∧
              isNearPointCloud linePcl strictConfig (linePcl.setInputCloud focused_cloud)
                target_cloud = true) ∧
          (isNearPointCloud linePcl strictConfig (linePcl.setInputCloud focused_cloud)
              target_cloud = true ↔
            ∃ p ∈ target_cloud,
              0 < linePcl.radiusSearch (linePcl.setInputCloud focused_cloud) p
                strictConfig.connect_distance_threshold 1) :=
  ⟨⟨rfl, rfl, rfl⟩, connection_recorded_iff linePcl strictConfig chainScene 3 rfl rfl rfl⟩

/-- Claim C9 at the chain scene. -/
theorem connection_map_shape_witness :
    (chainScene.nr_cluster = 3 ∧ chainScene.planes.length = 3 ∧
      chainScene.all_clouds.length = 3) ∧
    ∃ connection_map, buildConnectionMap linePcl strictConfig chainScene = some connection_map ∧
      connection_map.map Prod.fst = List.range 3 ∧
      ∀ e ∈ connection_map, ∃ others, e.2 = e.1 :: others ∧
        (∀ j ∈ others, e.1 < j ∧ j < 3) ∧ (e.1 :: others).Pairwise (· < ·) :=
  ⟨⟨rfl, rfl, rfl⟩, connection_map_shape linePcl strictConfig chainScene 3 rfl rfl rfl⟩

/-- Claim C2 at the chain scene. -/
theorem cloud_sets_partition_witness :
    ValidInput chainScene 3 ∧
    ∃ out, concatenate linePcl strictConfig chainScene = some out ∧
      buildConnectionMap linePcl strictConfig chainScene = some out.connection_map ∧
      out.cloud_sets = buildAllGroupsSetFromGraphMap out.connection_map ∧
      (∀ x, (∃ g ∈ out.cloud_sets, x ∈ g) ↔ x < 3) ∧
      out.cloud_sets.Pairwise (fun g h => ∀ x, x ∈ g → x ∉ h) ∧
      ∀ g ∈ out.cloud_sets, g ≠ [] :=
  ⟨chainScene_valid, cloud_sets_partition linePcl strictConfig chainScene 3 chainScene_valid⟩

/-- Claim C3 at the hub scene, where A has id 0, C has id 1 and the hub B has id 2. -/
theorem transitive_grouping_three_patches_witness :
    (ValidInput hubScene 3 ∧
      connectionTest linePcl strictConfig hubScene (min 0 2) (max 0 2) = true ∧
      connectionTest linePcl strictConfig hubScene (min 2 1) (max 2 1) = true ∧
      connectionTest linePcl strictConfig hubScene (min 0 1) (max 0 1) = false) ∧
    ∃ out, concatenate linePcl strictConfig hubScene = some out ∧
      out.cloud_sets = [[0, 1, 2]] ∧
      out.new_indices.length = 1 ∧
      out.new_refined_coefficients.length = 1 :=
  ⟨⟨hubScene_valid, by decide, by decide, by decide⟩,
    transitive_grouping_three_patches linePcl strictConfig hubScene hubScene_valid 0 2 1
      (by decide) (by decide) (by decide) (by decide) (by decide) (by decide)
      (by decide) (by decide) (by decide)⟩

/-- Claim C4 at the chain scene, whose patches 0 and 2 share an index. -/
theorem merged_indices_deduplicated_union_witness :
    ValidInput chainScene 3 ∧
    ∃ out, concatenate linePcl strictConfig chainScene = some out ∧
      out.new_indices.length = out.cloud_sets.length ∧
      ∀ (g : Nat) (group : List Nat), out.cloud_sets[g]? = some group →
        ∃ merged, out.new_indices[g]? = some merged ∧
          addGroupIndices chainScene group [] = some merged ∧
          merged.Nodup ∧
          ∀ x, x ∈ merged ↔
            ∃ k ∈ group, ∃ member, chainScene.all_indices[k]? = some member ∧ x ∈ member :=
  ⟨chainScene_valid,
    merged_indices_deduplicated_union linePcl strictConfig chainScene 3 chainScene_valid⟩

/-- Claim C5 on the heap of the chain scene, for an index vector without inlier. -/
theorem refinement_falls_back_or_refits_witness :
    chainScene.heap[0]? = some { values := 0 :: 0 :: 1 :: [0] } ∧
    ∃ result heap',
      refinement linePcl strictConfig chainScene.heap chainScene.cloud [-1] 0 =
        some (result, heap') ∧
      (∀ p, p < chainScene.heap.length → heap'[p]? = chainScene.heap[p]?) ∧
      ((linePcl.segment (refinementSetup strictConfig 0 0 1) chainScene.cloud [-1]).inliers.length
          = 0 →
        result = 0 ∧ heap'[result]? = some { values := 0 :: 0 :: 1 :: [0] }) ∧
      (0 < (linePcl.segment (refinementSetup strictConfig 0 0 1) chainScene.cloud
          [-1]).inliers.length →
        chainScene.heap.length ≤ result ∧
          heap'[result]? = some
            { values := (linePcl.segment (refinementSetup strictConfig 0 0 1) chainScene.cloud
                [-1]).coefficients }) :=
  ⟨rfl, refinement_falls_back_or_refits linePcl strictConfig chainScene.heap chainScene.cloud
    [-1] 0 0 0 1 [0] rfl⟩

/-- Claim C6 at the chain scene, from the strict to the loose configuration. -/
theorem threshold_monotonicity_witness :
    (chainScene.nr_cluster = 3 ∧ chainScene.planes.length = 3 ∧
      chainScene.all_clouds.length = 3 ∧
      strictConfig.connect_angular_threshold ≤ looseConfig.connect_angular_threshold ∧
      strictConfig.connect_distance_threshold ≤ looseConfig.connect_distance_threshold) ∧
    ∃ m m', buildConnectionMap linePcl strictConfig chainScene = some m ∧
      buildConnectionMap linePcl looseConfig chainScene = some m' ∧
      (∀ i row, mapFind m i = some row →
        ∃ row', mapFind m' i = some row' ∧ ∀ j ∈ row, j ∈ row') ∧
      ∀ g ∈ buildAllGroupsSetFromGraphMap m,
        ∃ g' ∈ buildAllGroupsSetFromGraphMap m', ∀ x ∈ g, x ∈ g' :=
  ⟨⟨rfl, rfl, rfl, by decide, by decide⟩,
    threshold_monotonicity linePcl strictConfig looseConfig chainScene 3 rfl rfl rfl
      (by decide) (by decide) linePcl_radiusSearch_mono⟩

/-- Claim C7 at the chain scene. -/
theorem representative_is_smallest_id_witness :
    ValidInput chainScene 3 ∧
    ∃ out, concatenate linePcl strictConfig chainScene = some out ∧
      out.new_refined_coefficients.length = out.new_indices.length ∧
      out.new_indices.length = out.cloud_sets.length ∧
      ∀ (g : Nat) (group : List Nat), out.cloud_sets[g]? = some group →
        ∃ first ptr merged refined,
          first ∈ group ∧ (∀ k ∈ group, first ≤ k) ∧
          chainScene.all_coefficients[first]? = some ptr ∧
          out.new_coefficients[g]? = some ptr ∧
          out.new_indices[g]? = some merged ∧
          out.new_refined_coefficients[g]? = some refined ∧
          ∃ ext heap2 n0 n1 n2 rest,
            refinement linePcl strictConfig (chainScene.heap ++ ext) chainScene.cloud merged ptr =
              some (refined, heap2) ∧
            chainScene.heap[ptr]? = some { values := n0 :: n1 :: n2 :: rest } ∧
            refined =
              if (linePcl.segment (refinementSetup strictConfig n0 n1 n2) chainScene.cloud
                  merged).inliers.length > 0
              then (chainScene.heap ++ ext).length else ptr :=
  ⟨chainScene_valid,
    representative_is_smallest_id linePcl strictConfig chainScene 3 chainScene_valid⟩

/-- Claim C8 at the corner scene: normals 45 degrees apart, angular threshold 5 degrees. -/
theorem no_connection_singletons_witness :
    (ValidInput cornerScene 2 ∧
      ∀ i j, i < j → j < 2 → connectionTest linePcl strictConfig cornerScene i j = false) ∧
    ∃ out, concatenate linePcl strictConfig cornerScene = some out ∧
      out.cloud_sets = (List.range 2).map (fun k => [k]) ∧
      out.new_indices.length = 2 ∧
      out.new_refined_coefficients.length = 2 ∧
      ∀ k, k < 2 → ∃ member ptr refined ext heap2,
        cornerScene.all_indices[k]? = some member ∧
        cornerScene.all_coefficients[k]? = some ptr ∧
        out.new_indices[k]? = some (addIndices [] member) ∧
        out.new_coefficients[k]? = some ptr ∧
        out.new_refined_coefficients[k]? = some refined ∧
        refinement linePcl strictConfig (cornerScene.heap ++ ext) cornerScene.cloud
          (addIndices [] member) ptr = some (refined, heap2) :=
  ⟨⟨cornerScene_valid, by
      intro i j hij hj
      obtain ⟨rfl, rfl⟩ : i = 0 ∧ j = 1 := by omega
      decide⟩,
    no_connection_singletons linePcl strictConfig cornerScene 2 cornerScene_valid (by
      intro i j hij hj
      obtain ⟨rfl, rfl⟩ : i = 0 ∧ j = 1 := by omega
      decide)⟩

/-- Claim C10 at the chain scene. -/
theorem concatenate_index_safety_witness :
    (chainScene.nr_cluster = 3 ∧ chainScene.all_indices.length = 3 ∧
      chainScene.all_coefficients.length = 3 ∧
      chainScene.all_clouds.length = chainScene.all_indices.length ∧
      chainScene.planes.length = chainScene.all_coefficients.length) ∧
    ∃ connection_map, buildConnectionMap linePcl strictConfig chainScene = some connection_map ∧
      (∀ e ∈ connection_map, e.1 < 3 ∧ ∀ j ∈ e.2, j < 3) ∧
      (∀ g ∈ buildAllGroupsSetFromGraphMap connection_map,
        (∃ first, g.head? = some first ∧ first < chainScene.all_coefficients.length) ∧
          ∀ k ∈ g, k < chainScene.all_indices.length) ∧
      ∃ new_indices new_coefficients,
        buildNewIndices chainScene (buildAllGroupsSetFromGraphMap connection_map) [] [] =
          some (new_indices, new_coefficients) ∧
        new_coefficients.length = new_indices.length :=
  ⟨⟨rfl, rfl, rfl, rfl, rfl⟩,
    concatenate_index_safety linePcl strictConfig chainScene 3 rfl rfl rfl rfl rfl⟩

end PlaneConcatenator
